import Mathlib

/-!
Verification of the babble-buddy widget and of the Context & Orchestration
Engine described in its specification.

Strings of the TypeScript source are modelled as `List Char`.  The widget's
two server-sent-event parsers (the TypeScript source `ApiClient.streamMessage`
and the parser of the bundled build) are embedded as functions from the list
of complete lines of the stream to the list of yielded events.
-/

namespace BabbleBuddy

/-- A single-quote character, written via its code point. -/
def squote : Char := Char.ofNat 39

/-- An event yielded by the widget's streaming parsers:
`yield { type: 'chunk' | 'done'; data: string }`. -/
inductive SSEEvent where
  | chunk (data : List Char)
  | done (data : List Char)
deriving DecidableEq, Repr

/-- Character class of the source regex `[a-f0-9-]`. -/
def isLowerHexDash (c : Char) : Bool :=
  (('a' ≤ c && c ≤ 'f') || ('0' ≤ c && c ≤ '9') || c = '-')

/-- The source test `data.match(/^[a-f0-9-]{36}$/)`: exactly 36 characters,
each a lowercase hex digit or a dash. -/
def looksLikeId36 (d : List Char) : Bool :=
  d.length == 36 && d.all isLowerHexDash

/-- Character class of the bundled regex `[a-f0-9]` under the `/i` flag. -/
def isHexInsensitive (c : Char) : Bool :=
  (('a' ≤ c && c ≤ 'f') || ('A' ≤ c && c ≤ 'F') || ('0' ≤ c && c ≤ '9'))

/-- The bundled test
`/^[a-f0-9]{8}-[a-f0-9]{4}-[a-f0-9]{4}-[a-f0-9]{4}-[a-f0-9]{12}$/i.test(g)`:
a canonical 8-4-4-4-12 UUID with case-insensitive hex digits. -/
def isCanonicalUuid (d : List Char) : Bool :=
  d.length == 36 &&
  (d.enum.all fun p =>
    if p.1 = 8 || p.1 = 13 || p.1 = 18 || p.1 = 23 then p.2 = '-'
    else isHexInsensitive p.2)

/-- JavaScript `String.prototype.trim`, dropping whitespace at both ends. -/
def jsTrim (s : List Char) : List Char :=
  ((s.dropWhile Char.isWhitespace).reverse.dropWhile Char.isWhitespace).reverse

/-- The TypeScript source's classification of a "done" payload:
`data.startsWith('bb_') || data.match(/^[a-f0-9-]{36}$/)`. -/
def srcSessionToken (d : List Char) : Bool :=
  "bb_".toList.isPrefixOf d || looksLikeId36 d

/-- One line of the body loop of the TypeScript `ApiClient.streamMessage`
(src/packages widget `utils/api.ts`): `event: ` lines are skipped, a
`data: ` line with non-empty payload yields `done` when the payload looks
like a session identifier and `chunk` otherwise. -/
def srcLine (line : List Char) : Option SSEEvent :=
  if "event: ".toList.isPrefixOf line then none
  else if "data: ".toList.isPrefixOf line then
    let data := line.drop 6
    if data = [] then none
    else if srcSessionToken data then some (.done data)
    else some (.chunk data)
  else none

/-- One line of the body loop of the bundled build's `streamMessage`:
it trims the payload before the empty test and the session-identifier test,
requires a strict case-insensitive UUID, and yields the trimmed payload on
`done` but the untrimmed payload on `chunk`. -/
def bundledLine (line : List Char) : Option SSEEvent :=
  if !("event: ".toList.isPrefixOf line) && "data: ".toList.isPrefixOf line then
    let u := line.drop 6
    let g := jsTrim u
    if g = [] then none
    else if "bb_".toList.isPrefixOf g || isCanonicalUuid g then some (.done g)
    else some (.chunk u)
  else none

/-- The TypeScript source parser over the complete lines of the stream. -/
def srcParse (lines : List (List Char)) : List SSEEvent :=
  lines.filterMap srcLine

/-- The bundled build's parser over the complete lines of the stream. -/
def bundledParse (lines : List (List Char)) : List SSEEvent :=
  lines.filterMap bundledLine

/-- An SSE `data: ` line carrying payload `t`. -/
def dataLine (t : List Char) : List Char := "data: ".toList ++ t

lemma event_not_prefix_dataLine (t : List Char) :
    ¬ ("event: ".toList <+: dataLine t) := by
  simp [dataLine, List.cons_prefix_cons]

lemma data_prefix_dataLine (t : List Char) :
    "data: ".toList <+: dataLine t := by
  simp [dataLine]

lemma dataLine_drop6 (t : List Char) : (dataLine t).drop 6 = t := rfl

lemma srcLine_dataLine (t : List Char) :
    srcLine (dataLine t) =
      (if t = [] then none
       else if srcSessionToken t then some (.done t) else some (.chunk t)) := by
  have heB : ¬ ("event: ".toList.isPrefixOf (dataLine t) = true) := by
    simpa using event_not_prefix_dataLine t
  have hdB : "data: ".toList.isPrefixOf (dataLine t) = true := by
    simpa using data_prefix_dataLine t
  unfold srcLine
  rw [if_neg heB, if_pos hdB, dataLine_drop6]

lemma srcSessionToken_ne_nil {d : List Char} (h : srcSessionToken d = true) :
    d ≠ [] := by
  rintro rfl
  simp [srcSessionToken, looksLikeId36] at h

end BabbleBuddy

namespace BabbleBuddy

/-- C2: over the lines of a server-sent-event stream consisting of data lines
of generated text (non-empty, not session-identifier-shaped) followed by a
terminal data line carrying the session identifier, the source
`ApiClient.streamMessage` yields exactly one `chunk` event per text line,
in order, followed by a single terminal `done` event carrying the session
identifier. -/
theorem C2_stream_chunks_then_done
    (texts : List (List Char)) (sid : List Char)
    (ht : ∀ t ∈ texts, t ≠ [] ∧ srcSessionToken t = false)
    (hs : srcSessionToken sid = true) :
    srcParse (texts.map dataLine ++ [dataLine sid]) =
      texts.map SSEEvent.chunk ++ [SSEEvent.done sid] := by
  induction texts with
  | nil =>
      simp [srcParse, srcLine_dataLine, srcSessionToken_ne_nil hs, hs]
  | cons t ts ih =>
      obtain ⟨hne, hf⟩ := ht t (by simp)
      have ih' := ih (fun u hu => ht u (by simp [hu]))
      have hline : srcLine (dataLine t) = some (SSEEvent.chunk t) := by
        simp [srcLine_dataLine, hne, hf]
      simp only [srcParse] at ih' ⊢
      simp only [List.map_cons, List.cons_append, List.filterMap_cons, hline, ih']

/-- C2 witness: evaluating the theorem on the concrete stream with one text
line `hi` and session identifier `bb_1`. -/
theorem C2_witness :
    srcParse (([['h', 'i']] : List (List Char)).map dataLine ++
        [dataLine "bb_1".toList]) =
      ([['h', 'i']] : List (List Char)).map SSEEvent.chunk ++
        [SSEEvent.done "bb_1".toList] :=
  C2_stream_chunks_then_done [['h', 'i']] "bb_1".toList (by decide) (by decide)

/-- A data line whose payload is 36 letters `a`: 36 characters over
`[a-f0-9-]`, but not in canonical 8-4-4-4-12 UUID form. -/
def divergingLine : List Char := dataLine (List.replicate 36 'a')

/-- C4 counterexample: the TypeScript source parser and the bundled build's
parser disagree on the stream containing the single data line whose payload
is 36 letters `a` — the source classifies it as the terminal `done` event,
the bundle as an ordinary `chunk`. -/
theorem C4_counterexample : srcParse [divergingLine] ≠ bundledParse [divergingLine] := by
  decide

/-- The condition under which one data line is classified identically by the
source parser and the bundled parser: its payload carries no surrounding
whitespace, and it is a 36-character string over `[a-f0-9-]` exactly when it
is a canonical case-insensitive 8-4-4-4-12 UUID. -/
def lineAgrees (line : List Char) : Prop :=
  ("data: ".toList <+: line) →
    (jsTrim (line.drop 6) = line.drop 6 ∧
      looksLikeId36 (line.drop 6) = isCanonicalUuid (line.drop 6))

lemma srcLine_eq_bundledLine {line : List Char} (h : lineAgrees line) :
    srcLine line = bundledLine line := by
  unfold srcLine bundledLine
  by_cases he : ("event: ".toList.isPrefixOf line = true)
  · have hc : (!("event: ".toList.isPrefixOf line) &&
        "data: ".toList.isPrefixOf line) = false := by rw [he]; rfl
    rw [if_pos he, if_neg (by rw [hc]; exact Bool.false_ne_true)]
  · have heF : "event: ".toList.isPrefixOf line = false := Bool.eq_false_iff.mpr he
    by_cases hd : ("data: ".toList.isPrefixOf line = true)
    · obtain ⟨htrim, hid⟩ := h (by simpa using hd)
      have hc : (!("event: ".toList.isPrefixOf line) &&
          "data: ".toList.isPrefixOf line) = true := by rw [heF, hd]; rfl
      rw [if_neg he, if_pos hd, if_pos hc]
      simp only [htrim, srcSessionToken, hid]
    · have hdF : "data: ".toList.isPrefixOf line = false := Bool.eq_false_iff.mpr hd
      have hc : (!("event: ".toList.isPrefixOf line) &&
          "data: ".toList.isPrefixOf line) = false := by rw [hdF]; simp
      rw [if_neg he, if_neg hd, if_neg (by rw [hc]; exact Bool.false_ne_true)]

/-- C4 amended: the two parsers yield the same event sequence on every
stream in which each data line satisfies `lineAgrees` — trimmed payload,
and 36-characters-over-`[a-f0-9-]` exactly when canonical-UUID-shaped. -/
theorem C4_amended_equiv (lines : List (List Char))
    (h : ∀ l ∈ lines, lineAgrees l) :
    srcParse lines = bundledParse lines := by
  induction lines with
  | nil => rfl
  | cons l ls ih =>
      have h1 := srcLine_eq_bundledLine (h l (by simp))
      have ih' := ih (fun u hu => h u (by simp [hu]))
      simp only [srcParse, bundledParse] at ih' ⊢
      simp only [List.filterMap_cons, h1, ih']

/-- C4 amended witness: the theorem evaluated on a concrete one-line stream. -/
theorem C4_amended_witness :
    srcParse [dataLine ['h', 'i']] = bundledParse [dataLine ['h', 'i']] :=
  C4_amended_equiv [dataLine ['h', 'i']] (by
    intro l hl
    simp only [List.mem_singleton] at hl
    subst hl
    intro hd
    exact ⟨by decide, by decide⟩)

/-! ## The widget store (`utils/state.ts`) and `Widget.sendMessage` -/

/-- The `role` field of a widget chat message. -/
inductive MsgRole where
  | user
  | assistant
deriving DecidableEq

/-- A widget chat `Message`: `{id, role, content, timestamp, isStreaming?}`.
`id` (a generated UUID string) and `timestamp` (a `Date`) are opaque to the
widget logic and modelled as a character list and a number. -/
structure Message where
  id : List Char
  role : MsgRole
  content : List Char
  timestamp : Nat
  isStreaming : Option Bool
deriving DecidableEq

/-- The widget store's `WidgetState`. -/
structure WidgetState where
  isOpen : Bool
  isLoading : Bool
  messages : List Message
  sessionId : Option (List Char)
  error : Option (List Char)
deriving DecidableEq

/-- A `Partial<WidgetState>`: each present field overrides the state's. -/
structure PartialState where
  isOpen : Option Bool := none
  isLoading : Option Bool := none
  messages : Option (List Message) := none
  sessionId : Option (Option (List Char)) := none
  error : Option (Option (List Char)) := none

/-- `setState`: spread of the partial over the state; the Boolean records
that every listener was notified. -/
def setState (st : WidgetState) (p : PartialState) : WidgetState × Bool :=
  ({ isOpen := p.isOpen.getD st.isOpen
     isLoading := p.isLoading.getD st.isLoading
     messages := p.messages.getD st.messages
     sessionId := p.sessionId.getD st.sessionId
     error := p.error.getD st.error }, true)

/-- `addMessage`: appends the message and notifies. -/
def addMessage (st : WidgetState) (m : Message) : WidgetState × Bool :=
  ({ st with messages := st.messages ++ [m] }, true)

/-- `messages[messages.length - 1] = { ...messages[messages.length - 1],
content }` on a copied array: replaces the content of the last element. -/
def setLastContent : List Message → List Char → List Message
  | [], _ => []
  | [m], c => [{ m with content := c }]
  | m :: m2 :: rest, c => m :: setLastContent (m2 :: rest) c

/-- `updateLastMessage`: when the list is non-empty, replaces the last
message's content and notifies; otherwise does nothing and notifies nobody. -/
def updateLastMessage (st : WidgetState) (c : List Char) : WidgetState × Bool :=
  if st.messages.length > 0 then
    ({ st with messages := setLastContent st.messages c }, true)
  else (st, false)

/-- `messages[messages.length - 1] = { ...last, isStreaming: false }`. -/
def setLastFinished : List Message → List Message
  | [] => []
  | [m] => [{ m with isStreaming := some false }]
  | m :: m2 :: rest => m :: setLastFinished (m2 :: rest)

/-- `finishStreaming`: clears the last message's streaming flag and the
loading flag when the list is non-empty. -/
def finishStreaming (st : WidgetState) : WidgetState × Bool :=
  if st.messages.length > 0 then
    ({ st with messages := setLastFinished st.messages, isLoading := false }, true)
  else (st, false)

/-- The observed behaviour of one `streamMessage` call inside
`Widget.sendMessage`: the events it yielded, and—when the call threw—the
error string computed by the `catch` block. -/
structure StreamRun where
  events : List SSEEvent
  failure : Option (List Char)

/-- The body of the `for await` loop of `Widget.sendMessage`: a `chunk`
appends to `fullContent` and rewrites the last message, a `done` stores the
session identifier. -/
def sendMessageStep (acc : WidgetState × List Char) (e : SSEEvent) :
    WidgetState × List Char :=
  match e with
  | .chunk d =>
      let full := acc.2 ++ d
      ((updateLastMessage acc.1 full).1, full)
  | .done d => ((setState acc.1 { sessionId := some (some d) }).1, acc.2)

/-- `Widget.sendMessage` (components/Widget.ts): trims the input, bails out
on empty input or while loading, records the user message and a streaming
assistant placeholder, replays the stream, and on failure sets the error,
clears loading and drops the last (assistant) message. -/
def sendMessage (st : WidgetState) (rawInput uid aid : List Char)
    (uts ats : Nat) (run : StreamRun) : WidgetState :=
  let message := jsTrim rawInput
  if message = [] ∨ st.isLoading then st
  else
    let st1 := (setState st { error := some none, isLoading := some true }).1
    let userMessage : Message :=
      { id := uid, role := .user, content := message, timestamp := uts,
        isStreaming := none }
    let st2 := (addMessage st1 userMessage).1
    let assistantMessage : Message :=
      { id := aid, role := .assistant, content := [], timestamp := ats,
        isStreaming := some true }
    let st3 := (addMessage st2 assistantMessage).1
    let st4 := (run.events.foldl sendMessageStep (st3, [])).1
    match run.failure with
    | none => (finishStreaming st4).1
    | some emsg =>
        let st5 := (setState st4 { error := some (some emsg), isLoading := some false }).1
        let msgs := st5.messages.dropLast
        (setState st5 { messages := some msgs }).1

lemma setLastContent_concat (l : List Message) (m : Message) (c : List Char) :
    setLastContent (l ++ [m]) c = l ++ [{ m with content := c }] := by
  induction l with
  | nil => rfl
  | cons x l ih =>
      cases l with
      | nil => rfl
      | cons y l' => simpa [setLastContent] using ih

lemma foldl_sendMessageStep_shape (events : List SSEEvent) :
    ∀ (s : WidgetState) (full : List Char) (base : List Message) (a : Message),
      s.messages = base ++ [a] →
      ∃ a', (events.foldl sendMessageStep (s, full)).1.messages = base ++ [a'] := by
  induction events with
  | nil => intro s full base a h; exact ⟨a, h⟩
  | cons e es ih =>
      intro s full base a h
      cases e with
      | chunk d =>
          apply ih _ (full ++ d) base ({ a with content := full ++ d })
          have hne : (s.messages.length > 0) := by simp [h]
          simp [sendMessageStep, updateLastMessage, hne, h, setLastContent_concat]
      | done d =>
          apply ih _ full base a
          simp [sendMessageStep, setState, h]

/-- C3: when the streaming call of `Widget.sendMessage` fails after yielding
any prefix of events, the final state's message list is the original list
plus only the user's own message (the assistant placeholder with its partial
content is removed), the error string is set, and loading is cleared. -/
theorem C3_stream_error_no_partial_content
    (st : WidgetState) (raw uid aid : List Char) (uts ats : Nat)
    (events : List SSEEvent) (emsg : List Char)
    (hmsg : jsTrim raw ≠ []) (hload : st.isLoading = false) :
    (sendMessage st raw uid aid uts ats ⟨events, some emsg⟩).messages =
      st.messages ++ [{ id := uid, role := .user, content := jsTrim raw,
                        timestamp := uts, isStreaming := none }] ∧
    (sendMessage st raw uid aid uts ats ⟨events, some emsg⟩).error = some emsg ∧
    (sendMessage st raw uid aid uts ats ⟨events, some emsg⟩).isLoading = false := by
  have hcond : ¬ (jsTrim raw = [] ∨ st.isLoading = true) := by
    rintro (h | h)
    · exact hmsg h
    · rw [hload] at h; exact Bool.false_ne_true h
  unfold sendMessage
  rw [if_neg hcond]
  obtain ⟨a', ha'⟩ := foldl_sendMessageStep_shape events
    ((addMessage
        ((addMessage
            ((setState st { error := some none, isLoading := some true }).1)
            { id := uid, role := .user, content := jsTrim raw, timestamp := uts,
              isStreaming := none }).1)
        { id := aid, role := .assistant, content := [], timestamp := ats,
          isStreaming := some true }).1)
    []
    (st.messages ++ [{ id := uid, role := .user, content := jsTrim raw,
                       timestamp := uts, isStreaming := none }])
    { id := aid, role := .assistant, content := [], timestamp := ats,
      isStreaming := some true }
    (by simp [setState, addMessage])
  simp [setState] at ha'
  refine ⟨?_, ?_, ?_⟩ <;>
    simp [setState, ha', List.dropLast_concat]

/-- C3 witness: the theorem evaluated on a concrete failing stream. -/
theorem C3_witness :
    (sendMessage ⟨false, false, [], none, none⟩ "hi".toList "u1".toList
        "a1".toList 0 1 ⟨[SSEEvent.chunk ['x']], some "boom".toList⟩).messages =
      ([] : List Message) ++ [{ id := "u1".toList, role := .user,
                                content := jsTrim "hi".toList, timestamp := 0,
                                isStreaming := none }] ∧
    (sendMessage ⟨false, false, [], none, none⟩ "hi".toList "u1".toList
        "a1".toList 0 1 ⟨[SSEEvent.chunk ['x']], some "boom".toList⟩).error =
      some "boom".toList ∧
    (sendMessage ⟨false, false, [], none, none⟩ "hi".toList "u1".toList
        "a1".toList 0 1 ⟨[SSEEvent.chunk ['x']], some "boom".toList⟩).isLoading =
      false :=
  C3_stream_error_no_partial_content ⟨false, false, [], none, none⟩
    "hi".toList "u1".toList "a1".toList 0 1 [SSEEvent.chunk ['x']]
    "boom".toList (by decide) rfl

lemma setLastContent_eq (l : List Message) (h : l ≠ []) (c : List Char) :
    setLastContent l c = l.dropLast ++ [{ l.getLast h with content := c }] := by
  induction l with
  | nil => exact absurd rfl h
  | cons m l ih =>
      cases l with
      | nil => simp [setLastContent]
      | cons m2 l' =>
          simp [setLastContent, ih (by simp), List.getLast_cons]

/-- C10: `updateLastMessage` on a non-empty message list changes only the
last message's content — every earlier message and the fields `isOpen`,
`isLoading`, `sessionId` and `error` are unchanged, and listeners are
notified — while on the empty list it leaves the state unchanged and
notifies no listener. -/
theorem C10_updateLastMessage_frame (st : WidgetState) (c : List Char) :
    (st.messages = [] → updateLastMessage st c = (st, false)) ∧
    (∀ h : st.messages ≠ [],
      (updateLastMessage st c).2 = true ∧
      (updateLastMessage st c).1.messages =
        st.messages.dropLast ++ [{ st.messages.getLast h with content := c }] ∧
      (updateLastMessage st c).1.isOpen = st.isOpen ∧
      (updateLastMessage st c).1.isLoading = st.isLoading ∧
      (updateLastMessage st c).1.sessionId = st.sessionId ∧
      (updateLastMessage st c).1.error = st.error) := by
  constructor
  · intro h
    simp [updateLastMessage, h]
  · intro h
    have hlen : st.messages.length > 0 := List.length_pos.mpr h
    simp [updateLastMessage, hlen, setLastContent_eq st.messages h c]

/-- A concrete one-message state used to witness C10. -/
def sampleState : WidgetState :=
  { isOpen := true, isLoading := false,
    messages := [{ id := ['m'], role := .assistant, content := ['o'],
                   timestamp := 3, isStreaming := some true }],
    sessionId := none, error := none }

/-- C10 witness: the theorem evaluated on a concrete non-empty state. -/
theorem C10_witness :
    (updateLastMessage sampleState ['n']).2 = true ∧
    (updateLastMessage sampleState ['n']).1.error = sampleState.error := by
  obtain ⟨-, h⟩ := C10_updateLastMessage_frame sampleState ['n']
  obtain ⟨h1, -, -, -, -, h5⟩ := h (by simp [sampleState])
  exact ⟨h1, h5⟩

/-! ## The Context & Orchestration Engine

The engine itself (Recall Engine, Orchestrator, Embedding Cache, Extraction
Pipeline) is not part of the repository's source tree — only its README and
planning documents are.  The definitions below are therefore modelled from
the specification's words. -/

/-- Modelled from the spec: a `Memory` row of the Memory Store
(`{id, tenant_id, subject, predicate, object, text, vector, importance,
created_at, expires_at?, source_turn_id}`); the missing Memory Store code is
not under the source tree.  Vector components are modelled as integers. -/
structure Memory where
  id : Nat
  tenantId : Nat
  subject : List Char
  predicate : List Char
  object : List Char
  text : List Char
  vector : List Int
  importance : ℚ
  createdAt : Nat
  expiresAt : Option Nat
  sourceTurnId : Option Nat
deriving DecidableEq

/-- Modelled from the spec: `MEMORY_HIGH_IMPORTANCE_THRESHOLD` defaults to
`0.9` (README configuration table; spec §4.2 `high_importance_threshold`). -/
def highImportanceThreshold : ℚ := 9 / 10

/-- Modelled from the spec: a memory with `expires_at` in the past is
excluded from recall. -/
def memExpired (now : Nat) (m : Memory) : Bool :=
  match m.expiresAt with
  | some t => decide (t < now)
  | none => false

/-- The recall ranking order: descending similarity; tie-break on equal
similarity by higher importance first, then most recent. -/
def recallBefore (sim : Memory → ℚ) (a b : Memory) : Bool :=
  decide (sim b < sim a) ||
    (decide (sim a = sim b) &&
      (decide (b.importance < a.importance) ||
        (decide (a.importance = b.importance) && decide (b.createdAt ≤ a.createdAt))))

/-- Modelled from the spec: `recall(tenant_id, query_text, limit,
min_similarity)` of the Recall Engine (§4.2), whose code is not under the
source tree.  The cosine similarity of a memory's vector to the embedded
query is abstracted as the function `sim`.  Non-expired memories of the
tenant with similarity at least `min_similarity` are ranked and truncated to
`limit`; separately every non-expired memory with importance at least the
always-inject threshold is appended, deduplicated against the similarity
results. -/
def recallMemories (now tenant : Nat) (mems : List Memory) (sim : Memory → ℚ)
    (limit : Nat) (minSim : ℚ) : List Memory :=
  let alive := mems.filter (fun m => m.tenantId == tenant && !(memExpired now m))
  let ranked := alive.filter (fun m => decide (minSim ≤ sim m))
  let top := (ranked.mergeSort (recallBefore sim)).take limit
  let highImp := alive.filter (fun m => decide (highImportanceThreshold ≤ m.importance))
  top ++ highImp.filter (fun m => !(decide (m ∈ top)))

lemma recall_subset_alive (now tenant : Nat) (mems : List Memory)
    (sim : Memory → ℚ) (limit : Nat) (minSim : ℚ) (m : Memory)
    (hm : m ∈ recallMemories now tenant mems sim limit minSim) :
    m ∈ mems.filter (fun m => m.tenantId == tenant && !(memExpired now m)) := by
  unfold recallMemories at hm
  rcases List.mem_append.mp hm with h | h
  · have h1 := List.take_subset _ _ h
    have h2 := ((List.mergeSort_perm _ _).mem_iff).mp h1
    exact List.mem_of_mem_filter h2
  · exact List.mem_of_mem_filter (List.mem_of_mem_filter h)

/-- C1: recall never returns an expired memory or a memory of another
tenant, and every non-expired memory of the tenant with importance at least
`0.9` is in the result, whatever the limit and whatever the similarity
function. -/
theorem C1_recall_no_expired_and_high_importance
    (now tenant : Nat) (mems : List Memory) (sim : Memory → ℚ)
    (limit : Nat) (minSim : ℚ) :
    (∀ m ∈ recallMemories now tenant mems sim limit minSim,
        memExpired now m = false ∧ m.tenantId = tenant) ∧
    (∀ m ∈ mems, m.tenantId = tenant → memExpired now m = false →
        highImportanceThreshold ≤ m.importance →
        m ∈ recallMemories now tenant mems sim limit minSim) := by
  constructor
  · intro m hm
    have h := recall_subset_alive now tenant mems sim limit minSim m hm
    have h2 := List.of_mem_filter h
    simp only [Bool.and_eq_true, beq_iff_eq, Bool.not_eq_true'] at h2
    exact ⟨h2.2, h2.1⟩
  · intro m hm hT hE hImp
    have halive : m ∈ mems.filter
        (fun m => m.tenantId == tenant && !(memExpired now m)) := by
      refine List.mem_filter.mpr ⟨hm, ?_⟩
      simp [hT, hE]
    have hhigh : m ∈ (mems.filter
        (fun m => m.tenantId == tenant && !(memExpired now m))).filter
        (fun m => decide (highImportanceThreshold ≤ m.importance)) := by
      refine List.mem_filter.mpr ⟨halive, ?_⟩
      simpa using hImp
    unfold recallMemories
    by_cases htop : m ∈ (((mems.filter
        (fun m => m.tenantId == tenant && !(memExpired now m))).filter
          (fun m => decide (minSim ≤ sim m))).mergeSort
            (recallBefore sim)).take limit
    · exact List.mem_append.mpr (Or.inl htop)
    · refine List.mem_append.mpr (Or.inr ?_)
      refine List.mem_filter.mpr ⟨hhigh, ?_⟩
      simpa using htop

/-- A safety-critical memory with full importance but low similarity. -/
def allergyMemory : Memory :=
  { id := 1, tenantId := 1, subject := "user".toList,
    predicate := "allergic_to".toList, object := "shellfish".toList,
    text := "user is allergic to shellfish".toList, vector := [1, 0],
    importance := 1, createdAt := 10, expiresAt := none, sourceTurnId := none }

/-- An expired memory of the same tenant. -/
def expiredMemory : Memory :=
  { id := 2, tenantId := 1, subject := "user".toList,
    predicate := "visiting".toList, object := "paris".toList,
    text := "user is visiting paris".toList, vector := [0, 1],
    importance := 8 / 10, createdAt := 20, expiresAt := some 50,
    sourceTurnId := none }

/-- A transient low-importance preference. -/
def darkModeMemory : Memory :=
  { id := 3, tenantId := 1, subject := "user".toList,
    predicate := "prefers".toList, object := "dark mode".toList,
    text := "prefers dark mode".toList, vector := [1, 1],
    importance := 5 / 10, createdAt := 30, expiresAt := none,
    sourceTurnId := none }

/-- The concrete memory set used to witness C1. -/
def sampleMemories : List Memory := [allergyMemory, expiredMemory, darkModeMemory]

/-- A concrete similarity function assigning `0.4` to the allergy memory
and `0.3` to the rest — all below the `0.6` similarity floor. -/
def sampleSim : Memory → ℚ := fun m => if m.id = 1 then 4 / 10 else 3 / 10

/-- C1 witness: the allergy memory (importance `1.0`, similarity `0.4`,
below the floor `0.6`) is still included in the recall result. -/
theorem C1_witness :
    allergyMemory ∈ recallMemories 100 1 sampleMemories sampleSim 1 (6 / 10) :=
  (C1_recall_no_expired_and_high_importance 100 1 sampleMemories sampleSim
      1 (6 / 10)).2 allergyMemory (by simp [sampleMemories]) rfl rfl
    (by norm_num [allergyMemory, highImportanceThreshold])

/-- Modelled from the spec: a configured agent of the Agent Registry; the
Orchestrator code is not under the source tree.  Only the identity matters
for the orchestration claims. -/
structure Agent where
  id : Nat
  name : List Char
deriving DecidableEq

/-- The outcome of executing a chain of agents: the successful stage
outputs, the agents actually dispatched (in order), and — when a stage
failed — its index and error. -/
structure ChainOutcome where
  results : List (Agent × List Char)
  invoked : List Agent
  failedStage : Option (Nat × List Char)
deriving DecidableEq

/-- Modelled from the spec: the `chain` strategy of the Orchestrator (§4.4),
whose code is not under the source tree.  Each agent's output becomes the
next agent's input; a failure at any stage halts the chain and returns the
partial results up to the failure point, tagged with the failing stage.
`exec` abstracts one provider call. -/
def chainRun (exec : Agent → List Char → Except (List Char) (List Char)) :
    List Agent → List Char → Nat → ChainOutcome
  | [], _, _ => { results := [], invoked := [], failedStage := none }
  | a :: rest, input, stage =>
      match exec a input with
      | .error e => { results := [], invoked := [a], failedStage := some (stage, e) }
      | .ok out =>
          let tail := chainRun exec rest out (stage + 1)
          { results := (a, out) :: tail.results,
            invoked := a :: tail.invoked,
            failedStage := tail.failedStage }

/-- The `chain` strategy started at stage `0`. -/
def chain (exec : Agent → List Char → Except (List Char) (List Char))
    (agents : List Agent) (input : List Char) : ChainOutcome :=
  chainRun exec agents input 0

lemma chainRun_spec (exec : Agent → List Char → Except (List Char) (List Char)) :
    ∀ (agents : List Agent) (input : List Char) (stage : Nat),
      (∀ i e, (chainRun exec agents input stage).failedStage = some (i, e) →
        stage ≤ i ∧
        (chainRun exec agents input stage).invoked = agents.take (i - stage + 1) ∧
        (chainRun exec agents input stage).results.map Prod.fst = agents.take (i - stage)) ∧
      ((chainRun exec agents input stage).failedStage = none →
        (chainRun exec agents input stage).invoked = agents) := by
  intro agents
  induction agents with
  | nil =>
      intro input stage
      constructor
      · intro i e h
        simp [chainRun] at h
      · intro _
        simp [chainRun]
  | cons a rest ih =>
      intro input stage
      constructor
      · intro i e h
        cases hx : exec a input with
        | error err =>
            rw [chainRun, hx] at h ⊢
            simp only [Option.some.injEq, Prod.mk.injEq] at h
            obtain ⟨hi, -⟩ := h
            subst hi
            simp
        | ok out =>
            rw [chainRun, hx] at h ⊢
            simp only at h
            obtain ⟨hle, hinv, hres⟩ := (ih out (stage + 1)).1 i e h
            refine ⟨by omega, ?_, ?_⟩
            · simp only [List.map_cons]
              have : i - stage + 1 = (i - (stage + 1) + 1) + 1 := by omega
              rw [this, List.take_succ_cons, hinv]
            · simp only [List.map_cons]
              have : i - stage = (i - (stage + 1)) + 1 := by omega
              rw [this, List.take_succ_cons, hres]
      · intro h
        cases hx : exec a input with
        | error err =>
            rw [chainRun, hx] at h
            simp at h
        | ok out =>
            rw [chainRun, hx] at h ⊢
            simp only at h
            have := (ih out (stage + 1)).2 h
            simp [this]

/-- C6: under the `chain` strategy, when stage `i` fails, only the agents of
stages `0..i` were ever invoked (no later stage runs), the partial results
are exactly the outputs of the stages before `i`, and the outcome is tagged
with the failing stage. -/
theorem C6_chain_halts_at_failure
    (exec : Agent → List Char → Except (List Char) (List Char))
    (agents : List Agent) (input : List Char) (i : Nat) (e : List Char)
    (h : (chain exec agents input).failedStage = some (i, e)) :
    (chain exec agents input).invoked = agents.take (i + 1) ∧
    (chain exec agents input).results.map Prod.fst = agents.take i := by
  have hs := (chainRun_spec exec agents input 0).1 i e h
  simpa [chain] using hs.2

/-- Three concrete agents for the orchestration witnesses. -/
def agentA : Agent := { id := 0, name := "researcher".toList }

/-- Second concrete agent. -/
def agentB : Agent := { id := 1, name := "coder".toList }

/-- Third concrete agent. -/
def agentC : Agent := { id := 2, name := "reviewer".toList }

/-- A concrete execution in which the second agent fails. -/
def failSecond (a : Agent) (input : List Char) : Except (List Char) (List Char) :=
  if a.id = 1 then .error "timeout".toList else .ok (input ++ ['!'])

/-- C6 witness: in a three-stage chain whose second stage fails, only the
first two agents are invoked and only the first stage's result is kept. -/
theorem C6_witness :
    (chain failSecond [agentA, agentB, agentC] ['q']).invoked =
      [agentA, agentB, agentC].take (1 + 1) ∧
    (chain failSecond [agentA, agentB, agentC] ['q']).results.map Prod.fst =
      [agentA, agentB, agentC].take 1 :=
  C6_chain_halts_at_failure failSecond [agentA, agentB, agentC] ['q'] 1
    "timeout".toList (by decide)

/-- A per-agent outcome entry of the `parallel` strategy, tagged
success/failure. -/
inductive AgentResult where
  | success (a : Agent) (out : List Char)
  | failure (a : Agent) (err : List Char)
deriving DecidableEq

/-- Whether an aggregate entry is tagged as failed. -/
def AgentResult.isFailure : AgentResult → Bool
  | .failure _ _ => true
  | .success _ _ => false

/-- Tags one agent's outcome. -/
def tagOutcome (outcome : Agent → Except (List Char) (List Char))
    (a : Agent) : AgentResult :=
  match outcome a with
  | .ok o => .success a o
  | .error e => .failure a e

/-- Modelled from the spec: the `parallel` strategy of the Orchestrator
(§4.4), whose code is not under the source tree.  Identical input is
dispatched to every agent; results are collected as the concurrent calls
complete (`order` lists the slot indices in completion order, writing each
agent's tagged outcome into its own slot) without short-circuiting on
failure, and the aggregate preserves one entry per agent. -/
def parallelRun (agents : List Agent)
    (outcome : Agent → Except (List Char) (List Char))
    (order : List Nat) : List (Option AgentResult) :=
  let slots := order.foldl
    (fun f i => fun j => if j = i then (agents.get? i).map (tagOutcome outcome) else f j)
    (fun _ => none)
  (List.range agents.length).map slots

lemma parallelRun_slots (agents : List Agent)
    (outcome : Agent → Except (List Char) (List Char)) :
    ∀ (order : List Nat) (f : Nat → Option AgentResult) (j : Nat),
      (order.foldl
        (fun f i => fun j => if j = i then (agents.get? i).map (tagOutcome outcome) else f j)
        f) j =
      if j ∈ order then (agents.get? j).map (tagOutcome outcome) else f j := by
  intro order
  induction order with
  | nil => intro f j; simp
  | cons i os ih =>
      intro f j
      simp only [List.foldl_cons]
      rw [ih]
      by_cases hjo : j ∈ os
      · simp [hjo]
      · by_cases hji : j = i
        · subst hji
          simp [hjo]
        · simp [hjo, hji]

lemma range_map_getOpt {α β : Type} (l : List α) (g : α → β) :
    (List.range l.length).map (fun j => (l.get? j).map g) =
      l.map (fun a => some (g a)) := by
  induction l with
  | nil => rfl
  | cons a t ih =>
      rw [List.length_cons, List.range_succ_eq_map, List.map_cons, List.map_cons]
      rw [List.map_map]
      refine congrArg₂ _ rfl ?_
      rw [← ih]
      exact List.map_congr_left (fun j hj => rfl)

lemma filterMap_some_comp_eq_map {α β : Type} (g : α → β) (l : List α) :
    l.filterMap (fun a => some (g a)) = l.map g := by
  induction l with
  | nil => rfl
  | cons a t ih => simp_all

/-- C7: under the `parallel` strategy the aggregate result is the same for
every completion order of the concurrent calls, and holds exactly one entry
per agent: with `K` failing agents it has `N` entries, `K` tagged failed and
`N − K` tagged success. -/
theorem C7_parallel_complete_aggregate
    (agents : List Agent) (outcome : Agent → Except (List Char) (List Char))
    (order : List Nat) (hperm : order.Perm (List.range agents.length)) :
    parallelRun agents outcome order =
      agents.map (fun a => some (tagOutcome outcome a)) ∧
    (parallelRun agents outcome order).length = agents.length ∧
    ((parallelRun agents outcome order).filterMap id).countP AgentResult.isFailure =
      agents.countP (fun a => (tagOutcome outcome a).isFailure) ∧
    ((parallelRun agents outcome order).filterMap id).countP
        (fun r => !(AgentResult.isFailure r)) =
      agents.countP (fun a => !((tagOutcome outcome a).isFailure)) := by
  have hmain : parallelRun agents outcome order =
      agents.map (fun a => some (tagOutcome outcome a)) := by
    unfold parallelRun
    have hpt : ∀ j ∈ List.range agents.length,
        (List.foldl
          (fun f i => fun j => if j = i then (agents.get? i).map (tagOutcome outcome) else f j)
          (fun _ => none) order) j =
        (agents.get? j).map (tagOutcome outcome) := by
      intro j hj
      rw [parallelRun_slots]
      have : j ∈ order := hperm.mem_iff.mpr hj
      simp [this]
    rw [List.map_congr_left hpt]
    exact range_map_getOpt agents (tagOutcome outcome)
  have hfm : (parallelRun agents outcome order).filterMap id =
      agents.map (tagOutcome outcome) := by
    rw [hmain, List.filterMap_map]
    exact filterMap_some_comp_eq_map (tagOutcome outcome) agents
  refine ⟨hmain, ?_, ?_, ?_⟩
  · rw [hmain, List.length_map]
  · rw [hfm, List.countP_map]
    rfl
  · rw [hfm, List.countP_map]
    rfl

/-- The completion order used in the C7 witness: the third call finishes
first, then the first, then the second. -/
def sampleOrder : List Nat := [2, 0, 1]

/-- C7 witness: three agents with one failing call, collected out of order,
yield three entries — one per agent — with one failure and two successes. -/
theorem C7_witness :
    parallelRun [agentA, agentB, agentC] (fun a => failSecond a ['q']) sampleOrder =
      [agentA, agentB, agentC].map
        (fun a => some (tagOutcome (fun a => failSecond a ['q']) a)) ∧
    (parallelRun [agentA, agentB, agentC] (fun a => failSecond a ['q'])
        sampleOrder).length = [agentA, agentB, agentC].length ∧
    ((parallelRun [agentA, agentB, agentC] (fun a => failSecond a ['q'])
        sampleOrder).filterMap id).countP AgentResult.isFailure =
      [agentA, agentB, agentC].countP
        (fun a => (tagOutcome (fun a => failSecond a ['q']) a).isFailure) ∧
    ((parallelRun [agentA, agentB, agentC] (fun a => failSecond a ['q'])
        sampleOrder).filterMap id).countP
        (fun r => !(AgentResult.isFailure r)) =
      [agentA, agentB, agentC].countP
        (fun a => !((tagOutcome (fun a => failSecond a ['q']) a).isFailure)) :=
  C7_parallel_complete_aggregate [agentA, agentB, agentC]
    (fun a => failSecond a ['q']) sampleOrder (by decide)

/-- Modelled from the spec: an `EmbeddingCacheEntry`
(`{key, vector, hits, last_access, expires_at}`); the Embedding Cache code
is not under the source tree.  Vector components are modelled as integers. -/
structure CacheEntry where
  vector : List Int
  hits : Nat
  lastAccess : Nat
  expiresAt : Nat
deriving DecidableEq

/-- Modelled from the spec: the process-wide embedding cache with its
observability hit counter, capacity bound and TTL.  The key
`hash(normalized_text, model)` is modelled by the text itself. -/
structure EmbeddingCache where
  entries : List (List Char × CacheEntry)
  hitCount : Nat
  capacity : Nat
  ttl : Nat
deriving DecidableEq

/-- Looks a key up in the cache's association list. -/
def lookupEntry (k : List Char) (es : List (List Char × CacheEntry)) :
    Option CacheEntry :=
  (es.find? (fun p => p.1 == k)).map Prod.snd

/-- Replaces the entry stored under a key. -/
def updateEntry (k : List Char) (e : CacheEntry)
    (es : List (List Char × CacheEntry)) : List (List Char × CacheEntry) :=
  es.map (fun p => if p.1 == k then (p.1, e) else p)

/-- Insertion step of the recency sort. -/
def insertByRank {α : Type} (le : α → α → Bool) (x : α) : List α → List α
  | [] => [x]
  | y :: ys => if le x y then x :: y :: ys else y :: insertByRank le x ys

/-- Insertion sort by the given ranking. -/
def sortByRank {α : Type} (le : α → α → Bool) : List α → List α
  | [] => []
  | x :: xs => insertByRank le x (sortByRank le xs)

/-- Modelled from the spec: eviction removes least-recently-used entries
first whenever the capacity is exceeded — the most recently used `cap`
entries are kept. -/
def evictLRU (cap : Nat) (es : List (List Char × CacheEntry)) :
    List (List Char × CacheEntry) :=
  (sortByRank (fun a b => decide (b.2.lastAccess ≤ a.2.lastAccess)) es).take cap

/-- Modelled from the spec: the miss path of `get_or_compute` — call the
provider's embedding capability, store the result with a fresh TTL, evict
least-recently-used entries if capacity is exceeded. -/
def computeAndStore (provider : List Char → List Int) (now : Nat)
    (t : List Char) (c : EmbeddingCache) :
    List Int × EmbeddingCache × Bool :=
  let v := provider t
  let others := c.entries.filter (fun p => !(p.1 == t))
  let inserted := others ++
    [(t, { vector := v, hits := 0, lastAccess := now, expiresAt := now + c.ttl })]
  (v, { c with entries := evictLRU c.capacity inserted }, true)

/-- Modelled from the spec: `get_or_compute(text) -> vector` (§4.1), whose
code is not under the source tree.  On a hit within TTL it returns the
cached vector and increments the hit counter without recomputation; on a
miss or expiry it computes, stores and evicts.  The returned Boolean
records whether the provider was called (recomputation). -/
def getOrCompute (provider : List Char → List Int) (now : Nat)
    (t : List Char) (c : EmbeddingCache) :
    List Int × EmbeddingCache × Bool :=
  match lookupEntry t c.entries with
  | some e =>
      if now < e.expiresAt then
        (e.vector,
         { c with
             entries := updateEntry t
               { e with hits := e.hits + 1, lastAccess := now } c.entries,
             hitCount := c.hitCount + 1 },
         false)
      else computeAndStore provider now t c
  | none => computeAndStore provider now t c

/-- A provider computing a fixed vector. -/
def constProvider : List Char → List Int := fun _ => [1]

/-- The empty cache with capacity `10` and TTL `0` used in the C8
counterexample. -/
def zeroTtlCache : EmbeddingCache :=
  { entries := [], hitCount := 0, capacity := 10, ttl := 0 }

/-- C8 counterexample: with a zero TTL, the entry stored by the first
`get_or_compute` call is still in the cache when the second call runs — no
eviction intervened — yet the second call recomputes and does not increment
the hit counter, contradicting the claim as stated.  (TTL expiry is distinct
from LRU eviction in the spec's data model.) -/
theorem C8_counterexample :
    (lookupEntry ['x'] ((getOrCompute constProvider 5 ['x'] zeroTtlCache).2.1.entries)).isSome
        = true ∧
    (getOrCompute constProvider 5 ['x']
        ((getOrCompute constProvider 5 ['x'] zeroTtlCache).2.1)).2.2 = true ∧
    (getOrCompute constProvider 5 ['x']
        ((getOrCompute constProvider 5 ['x'] zeroTtlCache).2.1)).2.1.hitCount =
      (getOrCompute constProvider 5 ['x'] zeroTtlCache).2.1.hitCount := by
  decide

lemma getOrCompute_hit (provider : List Char → List Int) (now : Nat)
    (t : List Char) (c : EmbeddingCache) (e : CacheEntry)
    (hlook : lookupEntry t c.entries = some e) (htime : now < e.expiresAt) :
    getOrCompute provider now t c =
      (e.vector,
       { c with
           entries := updateEntry t
             { e with hits := e.hits + 1, lastAccess := now } c.entries,
           hitCount := c.hitCount + 1 },
       false) := by
  unfold getOrCompute
  rw [hlook]
  simp [htime]

lemma lookupEntry_updateEntry (k : List Char) (ne : CacheEntry)
    (es : List (List Char × CacheEntry)) :
    lookupEntry k (updateEntry k ne es) = (lookupEntry k es).map (fun _ => ne) := by
  induction es with
  | nil => rfl
  | cons p ps ih =>
      by_cases hp : (p.1 == k) = true
      · simp only [lookupEntry, updateEntry, List.map_cons]
        rw [if_pos hp]
        rw [List.find?_cons_of_pos _ (by simpa using hp),
            List.find?_cons_of_pos _ (by simpa using hp)]
        rfl
      · simp only [lookupEntry, updateEntry, List.map_cons] at ih ⊢
        rw [if_neg (by simp [hp])]
        rw [List.find?_cons_of_neg _ (by simpa using hp),
            List.find?_cons_of_neg _ (by simpa using hp)]
        exact ih

lemma find?_pred_true {α : Type} (p : α → Bool) (l : List α) (a : α)
    (h : l.find? p = some a) : p a = true := List.find?_some h

lemma mem_insertByRank {α : Type} (le : α → α → Bool) (x a : α) (l : List α)
    (h : a ∈ insertByRank le x l) : a = x ∨ a ∈ l := by
  induction l with
  | nil =>
      simp only [insertByRank, List.mem_singleton] at h
      exact Or.inl h
  | cons y ys ih =>
      unfold insertByRank at h
      by_cases hle : le x y = true
      · rw [if_pos hle] at h
        rcases List.mem_cons.mp h with h | h
        · exact Or.inl h
        · exact Or.inr h
      · rw [if_neg hle] at h
        rcases List.mem_cons.mp h with h | h
        · exact Or.inr (List.mem_cons.mpr (Or.inl h))
        · rcases ih h with h' | h'
          · exact Or.inl h'
          · exact Or.inr (List.mem_cons.mpr (Or.inr h'))

lemma mem_sortByRank {α : Type} (le : α → α → Bool) (a : α) (l : List α)
    (h : a ∈ sortByRank le l) : a ∈ l := by
  induction l with
  | nil => simp [sortByRank] at h
  | cons x xs ih =>
      unfold sortByRank at h
      rcases mem_insertByRank le x a _ h with h' | h'
      · simp [h']
      · simp [ih h']

lemma vector_from_store (provider : List Char → List Int)
    (now₁ : Nat) (t : List Char) (c₀ : EmbeddingCache) (v₁ : List Int)
    (c₁ : EmbeddingCache) (comp₁ : Bool) (e : CacheEntry)
    (h1 : computeAndStore provider now₁ t c₀ = (v₁, c₁, comp₁))
    (hlook : lookupEntry t c₁.entries = some e) :
    e.vector = v₁ := by
  unfold computeAndStore at h1
  rw [Prod.mk.injEq, Prod.mk.injEq] at h1
  obtain ⟨hv, hc, -⟩ := h1
  subst hc
  have hlook' : lookupEntry t (evictLRU c₀.capacity
      (c₀.entries.filter (fun p => !(p.1 == t)) ++
        [(t, { vector := provider t, hits := 0, lastAccess := now₁,
               expiresAt := now₁ + c₀.ttl })])) = some e := hlook
  unfold lookupEntry at hlook'
  obtain ⟨q, hfind, hq2⟩ := Option.map_eq_some'.mp hlook'
  have hqt0 := find?_pred_true _ _ _ hfind
  have hqt : (q.1 == t) = true := hqt0
  have hqmem := List.mem_of_find?_eq_some hfind
  unfold evictLRU at hqmem
  have hqsorted := List.take_subset _ _ hqmem
  have hqin := mem_sortByRank _ _ _ hqsorted
  rcases List.mem_append.mp hqin with hqo | hqn
  · have hno := List.of_mem_filter hqo
    rw [hqt] at hno
    exact absurd hno (by decide)
  · have hq : q = (t, { vector := provider t, hits := 0,
                        lastAccess := now₁, expiresAt := now₁ + c₀.ttl }) := by
      simpa using hqn
    rw [hq] at hq2
    rw [← hq2, ← hv]

lemma vector_from_first_call (provider : List Char → List Int)
    (now₁ : Nat) (t : List Char) (c₀ : EmbeddingCache) (v₁ : List Int)
    (c₁ : EmbeddingCache) (comp₁ : Bool) (e : CacheEntry)
    (h1 : getOrCompute provider now₁ t c₀ = (v₁, c₁, comp₁))
    (hlook : lookupEntry t c₁.entries = some e) :
    e.vector = v₁ := by
  unfold getOrCompute at h1
  cases h0 : lookupEntry t c₀.entries with
  | none =>
      rw [h0] at h1
      exact vector_from_store provider now₁ t c₀ v₁ c₁ comp₁ e h1 hlook
  | some e₀ =>
      rw [h0] at h1
      have h1' : (if now₁ < e₀.expiresAt then
          (e₀.vector,
           { c₀ with
               entries := updateEntry t
                 { e₀ with hits := e₀.hits + 1, lastAccess := now₁ } c₀.entries,
               hitCount := c₀.hitCount + 1 },
           false)
        else computeAndStore provider now₁ t c₀) = (v₁, c₁, comp₁) := h1
      by_cases ht : now₁ < e₀.expiresAt
      · rw [if_pos ht] at h1'
        rw [Prod.mk.injEq, Prod.mk.injEq] at h1'
        obtain ⟨hv, hc, -⟩ := h1'
        subst hc
        have hlook' : lookupEntry t (updateEntry t
            { e₀ with hits := e₀.hits + 1, lastAccess := now₁ }
            c₀.entries) = some e := hlook
        rw [lookupEntry_updateEntry, h0] at hlook'
        simp only [Option.map_some'] at hlook'
        have he : ({ e₀ with hits := e₀.hits + 1, lastAccess := now₁ } :
            CacheEntry) = e := Option.some.inj hlook'
        rw [← he, ← hv]
      · rw [if_neg ht] at h1'
        exact vector_from_store provider now₁ t c₀ v₁ c₁ comp₁ e h1' hlook

/-- C8 amended: when the first call's entry is still present (no intervening
eviction) and the second call arrives within the entry's TTL, the second
`get_or_compute` returns the bit-identical vector, performs no
recomputation, and increments the hit counter exactly once. -/
theorem C8_amended_second_call_hit
    (provider : List Char → List Int) (now₁ now₂ : Nat) (t : List Char)
    (c₀ : EmbeddingCache) (v₁ : List Int) (c₁ : EmbeddingCache)
    (comp₁ : Bool) (e : CacheEntry)
    (h1 : getOrCompute provider now₁ t c₀ = (v₁, c₁, comp₁))
    (hlook : lookupEntry t c₁.entries = some e)
    (htime : now₂ < e.expiresAt) :
    (getOrCompute provider now₂ t c₁).1 = v₁ ∧
    (getOrCompute provider now₂ t c₁).2.2 = false ∧
    (getOrCompute provider now₂ t c₁).2.1.hitCount = c₁.hitCount + 1 := by
  have hv := vector_from_first_call provider now₁ t c₀ v₁ c₁ comp₁ e h1 hlook
  rw [getOrCompute_hit provider now₂ t c₁ e hlook htime]
  exact ⟨hv, rfl, rfl⟩

/-- The cache produced by the first call of the C8 amended witness. -/
def witnessCache : EmbeddingCache :=
  { entries := [(['x'], { vector := [1], hits := 0, lastAccess := 0,
                          expiresAt := 10 })],
    hitCount := 0, capacity := 10, ttl := 10 }

/-- C8 amended witness: first call at time 0 on an empty cache with TTL 10,
second call at time 5: cached vector, no recomputation, one hit counted. -/
theorem C8_amended_witness :
    (getOrCompute constProvider 5 ['x'] witnessCache).1 = [1] ∧
    (getOrCompute constProvider 5 ['x'] witnessCache).2.2 = false ∧
    (getOrCompute constProvider 5 ['x'] witnessCache).2.1.hitCount =
      witnessCache.hitCount + 1 :=
  C8_amended_second_call_hit constProvider 0 5 ['x']
    { entries := [], hitCount := 0, capacity := 10, ttl := 10 }
    [1] witnessCache true
    { vector := [1], hits := 0, lastAccess := 0, expiresAt := 10 }
    (by decide) (by decide) (by decide)

/-- Modelled from the spec: a `ConversationTurn`
(`{id, tenant_id, session_id, role, content, created_at, extracted}`); the
Extraction Pipeline code is not under the source tree. -/
structure Turn where
  id : Nat
  sessionId : Nat
  content : List Char
  extracted : Bool
deriving DecidableEq

/-- Modelled from the spec: a subject/predicate/object tuple with an
importance score, as emitted by the extraction model. -/
structure MemTuple where
  subject : List Char
  predicate : List Char
  object : List Char
  importance : ℚ
deriving DecidableEq

/-- The durable-store events of one batch-extraction run: a turn's tuples
being durably stored, and a turn being marked `extracted`. -/
inductive ExtractionEvent where
  | stored (turnId : Nat) (tuples : List MemTuple)
  | marked (turnId : Nat)
deriving DecidableEq

/-- Merge identity of the upsert: same subject+predicate+object. -/
def sameIdentity (a b : MemTuple) : Bool :=
  a.subject == b.subject && a.predicate == b.predicate && a.object == b.object

/-- Modelled from the spec: merge-by-identity upsert — the same
subject+predicate+object overwrites, anything else inserts. -/
def upsertTuple (ms : List MemTuple) (tp : MemTuple) : List MemTuple :=
  if ms.any (fun m => sameIdentity m tp) then
    ms.map (fun m => if sameIdentity m tp then tp else m)
  else ms ++ [tp]

/-- The Memory Store and turn queue state owned by the Extraction
Pipeline. -/
structure ExtractionState where
  turns : List Turn
  memories : List MemTuple
deriving DecidableEq

/-- Marks the turn with the given id as `extracted`. -/
def markExtracted (turns : List Turn) (tid : Nat) : List Turn :=
  turns.map (fun t => if t.id == tid then { t with extracted := true } else t)

/-- Modelled from the spec: processing of one dequeued turn in batch mode —
extraction, durable upsert of the parsed tuples, and only then marking the
turn `extracted`; malformed model output (`none`) is dropped and the turn is
still consumed. -/
def processTurn (extractFn : Turn → Option (List MemTuple))
    (acc : ExtractionState × List ExtractionEvent) (turn : Turn) :
    ExtractionState × List ExtractionEvent :=
  match extractFn turn with
  | some tups =>
      ({ turns := markExtracted acc.1.turns turn.id,
         memories := tups.foldl upsertTuple acc.1.memories },
       acc.2 ++ [.stored turn.id tups, .marked turn.id])
  | none =>
      ({ turns := markExtracted acc.1.turns turn.id,
         memories := acc.1.memories },
       acc.2 ++ [.marked turn.id])

/-- The pending (unextracted) turn queue. -/
def pendingTurns (st : ExtractionState) : List Turn :=
  st.turns.filter (fun t => !t.extracted)

/-- Modelled from the spec: one invocation of batch extraction — dequeue up
to `batch_size` unextracted turns and run extraction+upsert on each,
emitting the durable-store event trace. -/
def runExtraction (extractFn : Turn → Option (List MemTuple))
    (batchSize : Nat) (st : ExtractionState) :
    ExtractionState × List ExtractionEvent :=
  ((pendingTurns st).take batchSize).foldl (processTurn extractFn) (st, [])

/-- The events emitted for one turn. -/
def eventsFor (extractFn : Turn → Option (List MemTuple)) (turn : Turn) :
    List ExtractionEvent :=
  match extractFn turn with
  | some tups => [.stored turn.id tups, .marked turn.id]
  | none => [.marked turn.id]

lemma foldl_processTurn_turns (extractFn : Turn → Option (List MemTuple)) :
    ∀ (batch : List Turn) (st : ExtractionState) (evs : List ExtractionEvent),
      (batch.foldl (processTurn extractFn) (st, evs)).1.turns =
        batch.foldl (fun ts turn => markExtracted ts turn.id) st.turns := by
  intro batch
  induction batch with
  | nil => intro st evs; rfl
  | cons turn rest ih =>
      intro st evs
      rw [List.foldl_cons, List.foldl_cons]
      cases hx : extractFn turn with
      | some tups =>
          have : processTurn extractFn (st, evs) turn =
              ({ turns := markExtracted st.turns turn.id,
                 memories := tups.foldl upsertTuple st.memories },
               evs ++ [.stored turn.id tups, .marked turn.id]) := by
            unfold processTurn
            rw [hx]
          rw [this, ih]
      | none =>
          have : processTurn extractFn (st, evs) turn =
              ({ turns := markExtracted st.turns turn.id,
                 memories := st.memories },
               evs ++ [.marked turn.id]) := by
            unfold processTurn
            rw [hx]
          rw [this, ih]

lemma foldl_processTurn_events (extractFn : Turn → Option (List MemTuple)) :
    ∀ (batch : List Turn) (st : ExtractionState) (evs : List ExtractionEvent),
      (batch.foldl (processTurn extractFn) (st, evs)).2 =
        evs ++ batch.flatMap (eventsFor extractFn) := by
  intro batch
  induction batch with
  | nil => intro st evs; simp
  | cons turn rest ih =>
      intro st evs
      rw [List.foldl_cons]
      cases hx : extractFn turn with
      | some tups =>
          have : processTurn extractFn (st, evs) turn =
              ({ turns := markExtracted st.turns turn.id,
                 memories := tups.foldl upsertTuple st.memories },
               evs ++ [.stored turn.id tups, .marked turn.id]) := by
            unfold processTurn
            rw [hx]
          rw [this, ih]
          simp [eventsFor, hx]
      | none =>
          have : processTurn extractFn (st, evs) turn =
              ({ turns := markExtracted st.turns turn.id,
                 memories := st.memories },
               evs ++ [.marked turn.id]) := by
            unfold processTurn
            rw [hx]
          rw [this, ih]
          simp [eventsFor, hx]

/-- Marking under a set of turn identifiers. -/
def markIf (ids : List Nat) (t : Turn) : Turn :=
  if t.id ∈ ids then { t with extracted := true } else t

lemma foldl_markExtracted_eq_map :
    ∀ (ids : List Nat) (ts : List Turn),
      ids.foldl markExtracted ts = ts.map (markIf ids) := by
  intro ids
  induction ids with
  | nil =>
      intro ts
      rw [List.foldl_nil]
      have h0 : ts.map id = ts.map (markIf []) :=
        List.map_congr_left (fun t ht => by simp [markIf])
      rw [← h0, List.map_id]
  | cons i is ih =>
      intro ts
      rw [List.foldl_cons]
      rw [show markExtracted ts i =
        ts.map (fun t => if t.id == i then { t with extracted := true } else t) from rfl]
      rw [ih, List.map_map]
      apply List.map_congr_left
      intro t ht
      simp only [Function.comp_apply, markIf]
      by_cases hti : t.id = i
      · by_cases htis : t.id ∈ is <;> simp [hti, htis]
      · by_cases htis : t.id ∈ is <;> simp [hti, htis]

lemma filter_unmarked (ids : List Nat) : ∀ (ts : List Turn),
    (ts.map (markIf ids)).filter (fun t => !t.extracted) =
      ts.filter (fun t => !(decide (t.id ∈ ids)) && !t.extracted) := by
  intro ts
  induction ts with
  | nil => rfl
  | cons t ts ih =>
      rw [List.map_cons, List.filter_cons, List.filter_cons, ih]
      by_cases hin : t.id ∈ ids
      · have h1 : markIf ids t = { t with extracted := true } := by
          rw [markIf, if_pos hin]
        rw [h1]
        simp [hin]
      · have h1 : markIf ids t = t := by rw [markIf, if_neg hin]
        rw [h1]
        by_cases hte : t.extracted <;> simp [hin, hte]

lemma filter_notin_take_drop (L : List Turn) (n : Nat)
    (hnodup : (L.map Turn.id).Nodup) :
    L.filter (fun t => !(decide (t.id ∈ ((L.take n).map Turn.id)))) = L.drop n := by
  have hmapsplit : L.map Turn.id =
      (L.take n).map Turn.id ++ (L.drop n).map Turn.id := by
    conv_lhs => rw [← List.take_append_drop n L]
    rw [List.map_append]
  have hdisj : ∀ d ∈ L.drop n, d.id ∉ (L.take n).map Turn.id := by
    intro d hd hdin
    rw [hmapsplit] at hnodup
    exact (List.nodup_append.mp hnodup).2.2 hdin (List.mem_map_of_mem Turn.id hd)
  have hsplit2 : L.filter (fun t => !(decide (t.id ∈ ((L.take n).map Turn.id)))) =
      (L.take n).filter (fun t => !(decide (t.id ∈ ((L.take n).map Turn.id)))) ++
      (L.drop n).filter (fun t => !(decide (t.id ∈ ((L.take n).map Turn.id)))) := by
    rw [← List.filter_append, List.take_append_drop]
  rw [hsplit2]
  have h2 : (L.take n).filter
      (fun t => !(decide (t.id ∈ ((L.take n).map Turn.id)))) = [] := by
    apply List.filter_eq_nil_iff.mpr
    intro b hb
    have hdec : decide (b.id ∈ (L.take n).map Turn.id) = true :=
      decide_eq_true (List.mem_map_of_mem Turn.id hb)
    rw [hdec]
    decide
  have h3 : (L.drop n).filter
      (fun t => !(decide (t.id ∈ ((L.take n).map Turn.id)))) = L.drop n := by
    apply List.filter_eq_self.mpr
    intro d hd
    have hdec : decide (d.id ∈ (L.take n).map Turn.id) = false :=
      decide_eq_false (hdisj d hd)
    rw [hdec]
    decide
  rw [h2, h3, List.nil_append]

lemma pending_after (ts : List Turn) (n : Nat)
    (hids : (ts.map Turn.id).Nodup) :
    (ts.map (markIf (((ts.filter (fun t => !t.extracted)).take n).map Turn.id))).filter
      (fun t => !t.extracted) =
    (ts.filter (fun t => !t.extracted)).drop n := by
  have hLnodup : ((ts.filter (fun t => !t.extracted)).map Turn.id).Nodup :=
    List.Nodup.sublist (List.Sublist.map Turn.id (List.filter_sublist ts)) hids
  rw [filter_unmarked]
  rw [← List.filter_filter (fun t => !t.extracted) ts]
  exact filter_notin_take_drop (ts.filter (fun t => !t.extracted)) n hLnodup

/-- C9: one invocation of batch extraction dequeues exactly
`min batch_size pending` unextracted turns, afterwards exactly
`pending − batch_size` turns remain pending, the emitted event trace covers
exactly the dequeued turns in order, and every successfully extracted turn
is marked `extracted` only after its tuples were durably stored. -/
theorem C9_batch_extraction (extractFn : Turn → Option (List MemTuple))
    (batchSize : Nat) (st : ExtractionState)
    (hids : (st.turns.map Turn.id).Nodup) :
    ((pendingTurns st).take batchSize).length =
      min batchSize (pendingTurns st).length ∧
    (pendingTurns (runExtraction extractFn batchSize st).1).length =
      (pendingTurns st).length - batchSize ∧
    (runExtraction extractFn batchSize st).2 =
      ((pendingTurns st).take batchSize).flatMap (eventsFor extractFn) ∧
    (∀ turn ∈ (pendingTurns st).take batchSize,
      ∀ tups, extractFn turn = some tups →
        ∃ pre post, (runExtraction extractFn batchSize st).2 =
          pre ++ ExtractionEvent.stored turn.id tups ::
            ExtractionEvent.marked turn.id :: post) := by
  have hevents : (runExtraction extractFn batchSize st).2 =
      ((pendingTurns st).take batchSize).flatMap (eventsFor extractFn) := by
    unfold runExtraction
    rw [foldl_processTurn_events]
    rfl
  refine ⟨List.length_take _ _, ?_, hevents, ?_⟩
  · have hturns : (runExtraction extractFn batchSize st).1.turns =
        st.turns.map (markIf (((pendingTurns st).take batchSize).map Turn.id)) := by
      unfold runExtraction
      rw [foldl_processTurn_turns, ← List.foldl_map, foldl_markExtracted_eq_map]
    have hpend2 : pendingTurns (runExtraction extractFn batchSize st).1 =
        (pendingTurns st).drop batchSize := by
      rw [show pendingTurns (runExtraction extractFn batchSize st).1 =
        ((runExtraction extractFn batchSize st).1.turns).filter
          (fun t => !t.extracted) from rfl]
      rw [hturns]
      rw [show pendingTurns st = st.turns.filter (fun t => !t.extracted) from rfl]
      exact pending_after st.turns batchSize hids
    rw [hpend2, List.length_drop]
  · intro turn hturn tups htups
    obtain ⟨b1, b2, hb⟩ := List.append_of_mem hturn
    refine ⟨b1.flatMap (eventsFor extractFn), b2.flatMap (eventsFor extractFn), ?_⟩
    rw [hevents, hb]
    rw [List.flatMap_append, List.flatMap_cons]
    have : eventsFor extractFn turn =
        [ExtractionEvent.stored turn.id tups, ExtractionEvent.marked turn.id] := by
      unfold eventsFor
      rw [htups]
    rw [this]
    simp

/-- One hundred twenty pending turns. -/
def manyTurns : List Turn :=
  (List.range 120).map (fun i =>
    { id := i, sessionId := 0, content := [], extracted := false })

/-- The 120-pending-turn state of the spec's worked example. -/
def bigState : ExtractionState := { turns := manyTurns, memories := [] }

/-- A concrete extraction function for the C9 witness. -/
def sampleExtract : Turn → Option (List MemTuple) := fun t =>
  if t.sessionId = 0 then
    some [{ subject := "user".toList, predicate := "said".toList,
            object := t.content, importance := 1 }]
  else none

/-- C9 witness: batch extraction with `batch_size = 50` against 120 pending
turns processes exactly 50 turns and leaves exactly 70 pending. -/
theorem C9_witness :
    ((pendingTurns bigState).take 50).length =
      min 50 (pendingTurns bigState).length ∧
    (pendingTurns (runExtraction sampleExtract 50 bigState).1).length =
      (pendingTurns bigState).length - 50 := by
  obtain ⟨h1, h2, -, -⟩ := C9_batch_extraction sampleExtract 50 bigState (by decide)
  exact ⟨h1, h2⟩

/-! ## The markdown renderer (`packages/widget/src/utils/markdown.ts`)

`renderMarkdown` is embedded over characters tagged with their provenance:
the Boolean component is `true` for a character that derives from the input
text and `false` for a character introduced by the renderer's own fixed
markup.  Every pass copies tagged characters and inserts markup-tagged
template text, so the provenance of each output character is exact.  The
scanning passes carry a fuel argument bounded by the input length plus one;
every recursive step consumes at least one character, so the fuel never
runs out on the actual argument. -/

/-- A character tagged with its provenance (`true` = from the input). -/
abbrev TChar := Char × Bool

/-- The backtick character, written via its code point. -/
def btick : Char := Char.ofNat 96

/-- Renderer markup text: every character tagged as renderer-introduced. -/
def tagF (s : String) : List TChar := s.toList.map (fun c => (c, false))

/-- The `map` of `escapeHtml` together with the regex character class
`[&<>"']`: the five special characters map to their HTML entities, all
other characters are unchanged. -/
def htmlEscapeMap (c : Char) : List Char :=
  if c = '&' then "&amp;".toList
  else if c = '<' then "&lt;".toList
  else if c = '>' then "&gt;".toList
  else if c = '"' then "&quot;".toList
  else if c = squote then "&#039;".toList
  else [c]

/-- `escapeHtml` (markdown.ts): `text.replace(/[&<>"']/g, (char) => map[char])`,
scanning the text character by character. -/
def escapeHtml : List Char → List Char
  | [] => []
  | c :: rest => htmlEscapeMap c ++ escapeHtml rest

/-- `escapeHtml` over tagged characters: entity characters inherit the
provenance of the character they replace. -/
def escapeHtmlT (s : List TChar) : List TChar :=
  s.flatMap (fun p => (htmlEscapeMap p.1).map (fun c => (c, p.2)))

/-- JavaScript `.trim()` on tagged characters. -/
def trimT (s : List TChar) : List TChar :=
  ((s.dropWhile (fun p => p.1.isWhitespace)).reverse.dropWhile
    (fun p => p.1.isWhitespace)).reverse

/-- The JavaScript regex class `\w`. -/
def isWordChar (c : Char) : Bool := c.isAlphanum || c = '_'

/-- Splits at the first closing ``` fence: returns the content before it and
the remainder after it (the lazy `([\s\S]*?)` of the code-block regex). -/
def splitAtFence : List TChar → Option (List TChar × List TChar)
  | [] => none
  | c :: r =>
      if c.1 = btick ∧ (r.head?.map (fun x => x.1)) = some btick ∧
          ((r.drop 1).head?.map (fun x => x.1)) = some btick then
        some ([], r.drop 2)
      else (splitAtFence r).map (fun pr => (c :: pr.1, pr.2))

/-- The placeholder `__CODE_BLOCK_${index}__`. -/
def placeholderChars (i : Nat) : List Char :=
  "__CODE_BLOCK_".toList ++ (toString i).toList ++ "__".toList

/-- The `(\w*)` language capture after the opening fence. -/
def fenceLang (rest : List TChar) : List TChar :=
  (rest.drop 2).takeWhile (fun p => isWordChar p.1)

/-- The lazy content capture and the remainder after the closing fence:
`\n?` optionally consumes one newline after the language, then
`([\s\S]*?)` runs to the first closing fence. -/
def fenceContent (rest : List TChar) : Option (List TChar × List TChar) :=
  splitAtFence
    (if ((((rest.drop 2).dropWhile (fun p => isWordChar p.1)).head?).map
          (fun x => x.1)) = some '\n' then
      ((rest.drop 2).dropWhile (fun p => isWordChar p.1)).drop 1
    else (rest.drop 2).dropWhile (fun p => isWordChar p.1))

/-- The replacement markup pushed for one code block: the language label
when a language was captured, and the `pre`/`code` wrapper around the
HTML-escaped trimmed content. -/
def codeBlockHtml (lang content : List TChar) : List TChar :=
  (if lang = [] then []
   else tagF "<div class=\"bb-code-lang\">" ++ lang ++ tagF "</div>") ++
  tagF "<pre class=\"bb-code-block\"><code>" ++
  escapeHtmlT (trimT content) ++
  tagF "</code></pre>"

/-- The scan of `text.replace(/```(\w*)\n?([\s\S]*?)```/g, ...)`: each code
block is replaced by its placeholder, and the block markup is pushed onto
the collected block list. -/
def codeGo : Nat → List TChar → Nat → List TChar × List (List TChar)
  | 0, s, _ => (s, [])
  | _ + 1, [], _ => ([], [])
  | f + 1, c :: rest, idx =>
      if c.1 = btick ∧ (rest.head?.map (fun x => x.1)) = some btick ∧
          ((rest.drop 1).head?.map (fun x => x.1)) = some btick then
        match fenceContent rest with
        | some pr =>
            ((placeholderChars idx).map (fun ch => (ch, false)) ++
               (codeGo f pr.2 (idx + 1)).1,
             codeBlockHtml (fenceLang rest) pr.1 :: (codeGo f pr.2 (idx + 1)).2)
        | none => (c :: (codeGo f rest idx).1, (codeGo f rest idx).2)
      else (c :: (codeGo f rest idx).1, (codeGo f rest idx).2)

/-- The code-block extraction of `renderMarkdown`. -/
def extractCodeBlocks (s : List TChar) : List TChar × List (List TChar) :=
  codeGo (s.length + 1) s 0

/-- `html.replace(pattern, repl)` with a plain-string pattern: replaces the
first occurrence (matching on the characters, not the provenance tags). -/
def replaceFirstStr (pat : List Char) (repl : List TChar) :
    List TChar → List TChar
  | [] => []
  | c :: r =>
      if pat.isPrefixOf ((c :: r).map (fun p => p.1)) then
        repl ++ (c :: r).drop pat.length
      else c :: replaceFirstStr pat repl r

/-- The restore loop: `codeBlocks.forEach((block, i) => html =
html.replace(__CODE_BLOCK_i__, block))`. -/
def restoreBlocks (html : List TChar) (blocks : List (List TChar)) :
    List TChar :=
  blocks.enum.foldl (fun h pr => replaceFirstStr (placeholderChars pr.1) pr.2 h) html

/-- One line of the three sequential header replaces
`^### (.+)$`, `^## (.+)$`, `^# (.+)$` (multiline). -/
def headerLine (l : List TChar) : List TChar :=
  if "### ".toList.isPrefixOf (l.map (fun p => p.1)) ∧ l.length > 4 then
    tagF "<strong class=\"bb-h3\">" ++ l.drop 4 ++ tagF "</strong>"
  else if "## ".toList.isPrefixOf (l.map (fun p => p.1)) ∧ l.length > 3 then
    tagF "<strong class=\"bb-h2\">" ++ l.drop 3 ++ tagF "</strong>"
  else if "# ".toList.isPrefixOf (l.map (fun p => p.1)) ∧ l.length > 2 then
    tagF "<strong class=\"bb-h1\">" ++ l.drop 2 ++ tagF "</strong>"
  else l

/-- The header passes applied line by line (the `m` flag anchors `^`/`$` at
newlines). -/
def headersGo : Nat → List TChar → List TChar
  | 0, s => s
  | _ + 1, [] => []
  | f + 1, s =>
      match s.dropWhile (fun p => p.1 ≠ '\n') with
      | [] => headerLine (s.takeWhile (fun p => p.1 ≠ '\n'))
      | nl :: r2 =>
          headerLine (s.takeWhile (fun p => p.1 ≠ '\n')) ++ [nl] ++ headersGo f r2

/-- The header passes of `renderMarkdown`. -/
def headersPass (s : List TChar) : List TChar := headersGo (s.length + 1) s

/-- The scan of the inline-code replace `` /`([^`]+)`/g ``. -/
def inlineGo : Nat → List TChar → List TChar
  | 0, s => s
  | _ + 1, [] => []
  | f + 1, c :: rest =>
      if c.1 = btick then
        match rest.dropWhile (fun p => p.1 ≠ btick) with
        | _ :: r2 =>
            if rest.takeWhile (fun p => p.1 ≠ btick) ≠ [] then
              tagF "<code class=\"bb-inline-code\">" ++
                rest.takeWhile (fun p => p.1 ≠ btick) ++ tagF "</code>" ++
                inlineGo f r2
            else c :: inlineGo f rest
        | [] => c :: inlineGo f rest
      else c :: inlineGo f rest

/-- The inline-code pass of `renderMarkdown`. -/
def inlinePass (s : List TChar) : List TChar := inlineGo (s.length + 1) s

/-- The scan of the bold replace `/\*\*([^*]+)\*\*/g`. -/
def boldGo : Nat → List TChar → List TChar
  | 0, s => s
  | _ + 1, [] => []
  | f + 1, c :: rest =>
      if c.1 = '*' ∧ (rest.head?.map (fun p => p.1)) = some '*' then
        if (rest.drop 1).takeWhile (fun p => p.1 ≠ '*') ≠ [] ∧
            (((((rest.drop 1).dropWhile (fun p => p.1 ≠ '*')).drop 1).head?).map
              (fun p => p.1)) = some '*' then
          tagF "<strong>" ++ (rest.drop 1).takeWhile (fun p => p.1 ≠ '*') ++
            tagF "</strong>" ++
            boldGo f (((rest.drop 1).dropWhile (fun p => p.1 ≠ '*')).drop 2)
        else c :: boldGo f rest
      else c :: boldGo f rest

/-- The bold pass of `renderMarkdown`. -/
def boldPass (s : List TChar) : List TChar := boldGo (s.length + 1) s

/-- The scan of an italic replace with lookarounds,
`/(?<!x)x([^x]+)x(?!x)/g` for the delimiter `x` (`*` or `_`): `prev` is the
subject character before the current position, for the lookbehind. -/
def emphGo (ch : Char) : Nat → Option Char → List TChar → List TChar
  | 0, _, s => s
  | _ + 1, _, [] => []
  | f + 1, prev, c :: rest =>
      if c.1 = ch ∧ prev ≠ some ch then
        match rest.dropWhile (fun p => p.1 ≠ ch) with
        | _ :: r2 =>
            if rest.takeWhile (fun p => p.1 ≠ ch) ≠ [] ∧
                (r2.head?.map (fun p => p.1)) ≠ some ch then
              tagF "<em>" ++ rest.takeWhile (fun p => p.1 ≠ ch) ++ tagF "</em>" ++
                emphGo ch f (some ch) r2
            else c :: emphGo ch f (some c.1) rest
        | [] => c :: emphGo ch f (some c.1) rest
      else c :: emphGo ch f (some c.1) rest

/-- An italic pass of `renderMarkdown` (`*` or `_` delimiter). -/
def emphPass (ch : Char) (s : List TChar) : List TChar :=
  emphGo ch (s.length + 1) none s

/-- The scan of the link replace `/\[([^\]]+)\]\(([^)]+)\)/g`. -/
def linksGo : Nat → List TChar → List TChar
  | 0, s => s
  | _ + 1, [] => []
  | f + 1, c :: rest =>
      if c.1 = '[' then
        match rest.dropWhile (fun p => p.1 ≠ ']') with
        | _ :: r2 =>
            if rest.takeWhile (fun p => p.1 ≠ ']') ≠ [] then
              match r2 with
              | d :: r3 =>
                  if d.1 = '(' then
                    match r3.dropWhile (fun p => p.1 ≠ ')') with
                    | _ :: r4 =>
                        if r3.takeWhile (fun p => p.1 ≠ ')') ≠ [] then
                          tagF "<a href=\"" ++
                            r3.takeWhile (fun p => p.1 ≠ ')') ++
                            tagF "\" target=\"_blank\" rel=\"noopener\">" ++
                            rest.takeWhile (fun p => p.1 ≠ ']') ++
                            tagF "</a>" ++ linksGo f r4
                        else c :: linksGo f rest
                    | [] => c :: linksGo f rest
                  else c :: linksGo f rest
              | [] => c :: linksGo f rest
            else c :: linksGo f rest
        | [] => c :: linksGo f rest
      else c :: linksGo f rest

/-- The link pass of `renderMarkdown`. -/
def linksPass (s : List TChar) : List TChar := linksGo (s.length + 1) s

/-- The scan of the paragraph replace `/\n\n/g` by `</p><p>`. -/
def paraGo : Nat → List TChar → List TChar
  | 0, s => s
  | _ + 1, [] => []
  | f + 1, c :: rest =>
      if c.1 = '\n' ∧ (rest.head?.map (fun p => p.1)) = some '\n' then
        tagF "</p><p>" ++ paraGo f (rest.drop 1)
      else c :: paraGo f rest

/-- The paragraph pass of `renderMarkdown`. -/
def paraPass (s : List TChar) : List TChar := paraGo (s.length + 1) s

/-- The line-break replace `/\n/g` by `<br>`. -/
def brPass (s : List TChar) : List TChar :=
  s.flatMap (fun p => if p.1 = '\n' then tagF "<br>" else [p])

/-- `html.includes(pat)`. -/
def hasSubChars (pat : List Char) : List Char → Bool
  | [] => pat.isEmpty
  | c :: r => pat.isPrefixOf (c :: r) || hasSubChars pat r

/-- The final paragraph wrap: `if (html.includes('</p><p>')) html = '<p>' +
html + '</p>'`. -/
def wrapPass (s : List TChar) : List TChar :=
  if hasSubChars "</p><p>".toList (s.map (fun p => p.1)) then
    tagF "<p>" ++ s ++ tagF "</p>"
  else s

/-- `renderMarkdown` (markdown.ts) over provenance-tagged characters:
extract code blocks, escape the rest, restore the escaped blocks, then the
header, inline-code, bold, italic, link, paragraph and line-break passes,
finally wrapping in a paragraph when a paragraph split was produced. -/
def renderMarkdownT (s : List Char) : List TChar :=
  wrapPass (brPass (paraPass (linksPass (emphPass '_' (emphPass '*' (boldPass
    (inlinePass (headersPass (restoreBlocks
      (escapeHtmlT (extractCodeBlocks (s.map (fun c => (c, true)))).1)
      (extractCodeBlocks (s.map (fun c => (c, true)))).2)))))))))

/-- `renderMarkdown`: the rendered text, with provenance erased. -/
def renderMarkdown (s : List Char) : List Char :=
  (renderMarkdownT s).map (fun p => p.1)

/-- No input-derived character of the string is a raw `<`. -/
def inputSafe (s : List TChar) : Prop :=
  ∀ p ∈ s, p.2 = true → p.1 ≠ '<'

lemma no_lt_htmlEscapeMap (c : Char) : '<' ∉ htmlEscapeMap c := by
  intro hmem
  unfold htmlEscapeMap at hmem
  split_ifs at hmem with h1 h2 h3 h4 h5
  · revert hmem; decide
  · revert hmem; decide
  · revert hmem; decide
  · revert hmem; decide
  · revert hmem; decide
  · rw [List.mem_singleton] at hmem
    exact h2 hmem.symm

lemma escapeHtmlT_no_lt (s : List TChar) : ∀ p ∈ escapeHtmlT s, p.1 ≠ '<' := by
  intro p hp
  unfold escapeHtmlT at hp
  obtain ⟨q, hq, hp2⟩ := List.mem_flatMap.mp hp
  obtain ⟨c, hc, hrfl⟩ := List.mem_map.mp hp2
  intro hlt
  rw [← hrfl] at hlt
  simp only at hlt
  exact no_lt_htmlEscapeMap q.1 (hlt ▸ hc)

lemma tagF_false (s : String) : ∀ p ∈ tagF s, p.2 = false := by
  intro p hp
  obtain ⟨c, -, hrfl⟩ := List.mem_map.mp hp
  rw [← hrfl]

lemma inputSafe_of_subset {out src : List TChar}
    (hsub : ∀ p ∈ out, p ∈ src ∨ p.2 = false) (hs : inputSafe src) :
    inputSafe out := by
  intro p hp ht
  rcases hsub p hp with h | h
  · exact hs p h ht
  · rw [h] at ht
    exact absurd ht (by decide)

lemma inputSafe_append {a b : List TChar} (ha : inputSafe a) (hb : inputSafe b) :
    inputSafe (a ++ b) := by
  intro p hp ht
  rcases List.mem_append.mp hp with h | h
  · exact ha p h ht
  · exact hb p h ht

lemma inputSafe_tagF (s : String) : inputSafe (tagF s) := by
  intro p hp ht
  rw [tagF_false s p hp] at ht
  exact absurd ht (by decide)

lemma inputSafe_no_lt {s : List TChar} (h : ∀ p ∈ s, p.1 ≠ '<') :
    inputSafe s := fun p hp _ => h p hp

lemma replaceFirstStr_subset (pat : List Char) (repl : List TChar) :
    ∀ (s : List TChar) (p : TChar), p ∈ replaceFirstStr pat repl s →
      p ∈ s ∨ p ∈ repl := by
  intro s
  induction s with
  | nil => intro p hp; exact absurd hp (by simp [replaceFirstStr])
  | cons c r ih =>
      intro p hp
      unfold replaceFirstStr at hp
      by_cases hpre : pat.isPrefixOf ((c :: r).map (fun q => q.1)) = true
      · rw [if_pos hpre] at hp
        rcases List.mem_append.mp hp with h | h
        · exact Or.inr h
        · exact Or.inl (List.drop_subset _ _ h)
      · rw [if_neg hpre] at hp
        rcases List.mem_cons.mp hp with h | h
        · exact Or.inl (by simp [h])
        · rcases ih p h with h' | h'
          · exact Or.inl (List.mem_cons.mpr (Or.inr h'))
          · exact Or.inr h'

lemma foldl_replace_safe :
    ∀ (l : List (Nat × List TChar)) (h : List TChar),
      (∀ pr ∈ l, inputSafe pr.2) → inputSafe h →
      inputSafe (l.foldl
        (fun h pr => replaceFirstStr (placeholderChars pr.1) pr.2 h) h) := by
  intro l
  induction l with
  | nil => intro h _ hh; exact hh
  | cons pr l ih =>
      intro h hbl hh
      rw [List.foldl_cons]
      refine ih _ (fun q hq => hbl q (List.mem_cons.mpr (Or.inr hq))) ?_
      have hpr := hbl pr (List.mem_cons.mpr (Or.inl rfl))
      intro p hp ht
      rcases replaceFirstStr_subset _ _ _ p hp with h' | h'
      · exact hh p h' ht
      · exact hpr p h' ht

lemma restoreBlocks_safe (html : List TChar) (blocks : List (List TChar))
    (hh : inputSafe html) (hbl : ∀ bl ∈ blocks, inputSafe bl) :
    inputSafe (restoreBlocks html blocks) := by
  unfold restoreBlocks
  refine foldl_replace_safe _ _ ?_ hh
  intro pr hpr
  refine hbl pr.2 ?_
  have : pr.2 ∈ blocks.enum.map Prod.snd := List.mem_map_of_mem Prod.snd hpr
  rwa [List.enum_map_snd] at this

lemma isWordChar_ne_lt {c : Char} (h : isWordChar c = true) : c ≠ '<' := by
  intro hc
  rw [hc] at h
  exact absurd h (by decide)

lemma codeBlockHtml_safe (lang content : List TChar)
    (hlang : ∀ p ∈ lang, isWordChar p.1 = true) :
    inputSafe (codeBlockHtml lang content) := by
  unfold codeBlockHtml
  refine inputSafe_append (inputSafe_append (inputSafe_append ?_
    (inputSafe_tagF _)) ?_) (inputSafe_tagF _)
  · by_cases hl : lang = []
    · rw [if_pos hl]
      intro p hp
      exact absurd hp (List.not_mem_nil p)
    · rw [if_neg hl]
      refine inputSafe_append (inputSafe_append (inputSafe_tagF _) ?_)
        (inputSafe_tagF _)
      exact inputSafe_no_lt (fun p hp => isWordChar_ne_lt (hlang p hp))
  · exact inputSafe_no_lt (escapeHtmlT_no_lt _)

lemma codeGo_blocks_safe : ∀ (fuel : Nat) (s : List TChar) (idx : Nat),
    ∀ bl ∈ (codeGo fuel s idx).2, inputSafe bl := by
  intro fuel
  induction fuel with
  | zero => intro s idx bl hbl; simp [codeGo] at hbl
  | succ f ih =>
      intro s idx bl hbl
      cases s with
      | nil => simp [codeGo] at hbl
      | cons c rest =>
          unfold codeGo at hbl
          by_cases hc : (c.1 = btick ∧ (rest.head?.map (fun x => x.1)) = some btick ∧
              ((rest.drop 1).head?.map (fun x => x.1)) = some btick)
          · rw [if_pos hc] at hbl
            cases hsf : fenceContent rest with
            | some pr =>
                rw [hsf] at hbl
                have hbl' : bl ∈ codeBlockHtml (fenceLang rest) pr.1 ::
                    (codeGo f pr.2 (idx + 1)).2 := hbl
                rcases List.mem_cons.mp hbl' with h | h
                · rw [h]
                  refine codeBlockHtml_safe _ _ ?_
                  intro p hp
                  unfold fenceLang at hp
                  have h0 := List.mem_takeWhile_imp hp
                  exact h0
                · exact ih pr.2 (idx + 1) bl h
            | none =>
                rw [hsf] at hbl
                exact ih rest idx bl hbl
          · rw [if_neg hc] at hbl
            exact ih rest idx bl hbl

lemma mem_of_takeWhile {pred : TChar → Bool} {rest : List TChar} :
    ∀ p ∈ rest.takeWhile pred, p ∈ rest :=
  fun p hp => (List.takeWhile_sublist pred).subset hp

lemma mem_of_dropWhile_cons {pred : TChar → Bool} {rest : List TChar}
    {t : TChar} {r2 : List TChar} (hd : rest.dropWhile pred = t :: r2) :
    (t ∈ rest) ∧ (∀ p ∈ r2, p ∈ rest) := by
  constructor
  · have : t ∈ rest.dropWhile pred := by rw [hd]; exact List.mem_cons_self t r2
    exact (List.dropWhile_sublist pred).subset this
  · intro p hp
    have : p ∈ rest.dropWhile pred := by
      rw [hd]; exact List.mem_cons.mpr (Or.inr hp)
    exact (List.dropWhile_sublist pred).subset this

lemma mem_cons_lift {c : TChar} {rest : List TChar} {g : List TChar}
    (hg : ∀ p ∈ g, p ∈ rest ∨ p.2 = false) :
    ∀ p ∈ c :: g, p ∈ c :: rest ∨ p.2 = false := by
  intro p hp
  rcases List.mem_cons.mp hp with h | h
  · exact Or.inl (List.mem_cons.mpr (Or.inl h))
  · rcases hg p h with h' | h'
    · exact Or.inl (List.mem_cons.mpr (Or.inr h'))
    · exact Or.inr h'

lemma subset_wrap {pre post : String} {mid l : List TChar}
    (hmid : ∀ p ∈ mid, p ∈ l) :
    ∀ p ∈ tagF pre ++ mid ++ tagF post, p ∈ l ∨ p.2 = false := by
  intro p hp
  rcases List.mem_append.mp hp with h12 | h3
  · rcases List.mem_append.mp h12 with h1 | h2
    · exact Or.inr (tagF_false _ p h1)
    · exact Or.inl (hmid p h2)
  · exact Or.inr (tagF_false _ p h3)

lemma headerLine_subset (l : List TChar) :
    ∀ p ∈ headerLine l, p ∈ l ∨ p.2 = false := by
  intro p hp
  unfold headerLine at hp
  split_ifs at hp with h1 h2 h3
  · exact subset_wrap (fun q hq => List.drop_subset _ _ hq) p hp
  · exact subset_wrap (fun q hq => List.drop_subset _ _ hq) p hp
  · exact subset_wrap (fun q hq => List.drop_subset _ _ hq) p hp
  · exact Or.inl hp

lemma headersGo_subset : ∀ (fuel : Nat) (s : List TChar),
    ∀ p ∈ headersGo fuel s, p ∈ s ∨ p.2 = false := by
  intro fuel
  induction fuel with
  | zero => intro s p hp; exact Or.inl hp
  | succ f ih =>
      intro s p hp
      cases s with
      | nil => simp [headersGo] at hp
      | cons c rest =>
          unfold headersGo at hp
          cases hd : (c :: rest).dropWhile (fun p => p.1 ≠ '\n') with
          | nil =>
              rw [hd] at hp
              rcases headerLine_subset _ p hp with h | h
              · exact Or.inl (mem_of_takeWhile p h)
              · exact Or.inr h
          | cons nl r2 =>
              rw [hd] at hp
              rcases List.mem_append.mp hp with h12 | h3
              · rcases List.mem_append.mp h12 with h1 | h2
                · rcases headerLine_subset _ p h1 with h | h
                  · exact Or.inl (mem_of_takeWhile p h)
                  · exact Or.inr h
                · rw [List.mem_singleton] at h2
                  rw [h2]
                  exact Or.inl (mem_of_dropWhile_cons hd).1
              · rcases ih r2 p h3 with h | h
                · exact Or.inl ((mem_of_dropWhile_cons hd).2 p h)
                · exact Or.inr h

lemma inlineGo_subset : ∀ (fuel : Nat) (s : List TChar),
    ∀ p ∈ inlineGo fuel s, p ∈ s ∨ p.2 = false := by
  intro fuel
  induction fuel with
  | zero => intro s p hp; exact Or.inl hp
  | succ f ih =>
      intro s p hp
      cases s with
      | nil => simp [inlineGo] at hp
      | cons c rest =>
          unfold inlineGo at hp
          by_cases hc : c.1 = btick
          · rw [if_pos hc] at hp
            cases hd : rest.dropWhile (fun p => p.1 ≠ btick) with
            | nil =>
                rw [hd] at hp
                exact mem_cons_lift (ih rest) p hp
            | cons t r2 =>
                rw [hd] at hp
                have hp0 : p ∈ (if rest.takeWhile (fun p => p.1 ≠ btick) ≠ [] then
                    tagF "<code class=\"bb-inline-code\">" ++
                      rest.takeWhile (fun p => p.1 ≠ btick) ++ tagF "</code>" ++
                      inlineGo f r2
                  else c :: inlineGo f rest) := hp
                by_cases hrun : rest.takeWhile (fun p => p.1 ≠ btick) ≠ []
                · rw [if_pos hrun] at hp0
                  rcases List.mem_append.mp hp0 with h12 | h4
                  · rcases subset_wrap (fun q hq => mem_of_takeWhile q hq)
                        p h12 with h | h
                    · exact Or.inl (List.mem_cons.mpr (Or.inr h))
                    · exact Or.inr h
                  · rcases ih r2 p h4 with h | h
                    · exact Or.inl (List.mem_cons.mpr
                        (Or.inr ((mem_of_dropWhile_cons hd).2 p h)))
                    · exact Or.inr h
                · rw [if_neg hrun] at hp0
                  exact mem_cons_lift (ih rest) p hp0
          · rw [if_neg hc] at hp
            exact mem_cons_lift (ih rest) p hp

lemma boldGo_subset : ∀ (fuel : Nat) (s : List TChar),
    ∀ p ∈ boldGo fuel s, p ∈ s ∨ p.2 = false := by
  intro fuel
  induction fuel with
  | zero => intro s p hp; exact Or.inl hp
  | succ f ih =>
      intro s p hp
      cases s with
      | nil => simp [boldGo] at hp
      | cons c rest =>
          unfold boldGo at hp
          by_cases hc : (c.1 = '*' ∧ (rest.head?.map (fun p => p.1)) = some '*')
          · rw [if_pos hc] at hp
            by_cases hm : ((rest.drop 1).takeWhile (fun p => p.1 ≠ '*') ≠ [] ∧
                (((((rest.drop 1).dropWhile (fun p => p.1 ≠ '*')).drop 1).head?).map
                  (fun p => p.1)) = some '*')
            · rw [if_pos hm] at hp
              rcases List.mem_append.mp hp with h12 | h4
              · rcases subset_wrap (fun q hq =>
                    List.drop_subset 1 rest (mem_of_takeWhile q hq)) p h12 with h | h
                · exact Or.inl (List.mem_cons.mpr (Or.inr h))
                · exact Or.inr h
              · rcases ih _ p h4 with h | h
                · refine Or.inl (List.mem_cons.mpr (Or.inr ?_))
                  have h1 := List.drop_subset 2 _ h
                  have h2 := (List.dropWhile_sublist
                    (fun p : TChar => p.1 ≠ '*')).subset h1
                  exact List.drop_subset 1 rest h2
                · exact Or.inr h
            · rw [if_neg hm] at hp
              exact mem_cons_lift (ih rest) p hp
          · rw [if_neg hc] at hp
            exact mem_cons_lift (ih rest) p hp

lemma emphGo_subset (ch : Char) : ∀ (fuel : Nat) (prev : Option Char)
    (s : List TChar), ∀ p ∈ emphGo ch fuel prev s, p ∈ s ∨ p.2 = false := by
  intro fuel
  induction fuel with
  | zero => intro prev s p hp; exact Or.inl hp
  | succ f ih =>
      intro prev s p hp
      cases s with
      | nil => simp [emphGo] at hp
      | cons c rest =>
          unfold emphGo at hp
          by_cases hc : (c.1 = ch ∧ prev ≠ some ch)
          · rw [if_pos hc] at hp
            cases hd : rest.dropWhile (fun p => p.1 ≠ ch) with
            | nil =>
                rw [hd] at hp
                exact mem_cons_lift (ih (some c.1) rest) p hp
            | cons t r2 =>
                rw [hd] at hp
                have hp0 : p ∈ (if rest.takeWhile (fun p => p.1 ≠ ch) ≠ [] ∧
                    (r2.head?.map (fun p => p.1)) ≠ some ch then
                    tagF "<em>" ++ rest.takeWhile (fun p => p.1 ≠ ch) ++
                      tagF "</em>" ++ emphGo ch f (some ch) r2
                  else c :: emphGo ch f (some c.1) rest) := hp
                by_cases hm : (rest.takeWhile (fun p => p.1 ≠ ch) ≠ [] ∧
                    (r2.head?.map (fun p => p.1)) ≠ some ch)
                · rw [if_pos hm] at hp0
                  rcases List.mem_append.mp hp0 with h12 | h4
                  · rcases subset_wrap (fun q hq => mem_of_takeWhile q hq)
                        p h12 with h | h
                    · exact Or.inl (List.mem_cons.mpr (Or.inr h))
                    · exact Or.inr h
                  · rcases ih (some ch) r2 p h4 with h | h
                    · exact Or.inl (List.mem_cons.mpr
                        (Or.inr ((mem_of_dropWhile_cons hd).2 p h)))
                    · exact Or.inr h
                · rw [if_neg hm] at hp0
                  exact mem_cons_lift (ih (some c.1) rest) p hp0
          · rw [if_neg hc] at hp
            exact mem_cons_lift (ih (some c.1) rest) p hp

lemma mem_ite_same {P : Prop} [Decidable P] {a : List TChar} {x : TChar}
    (h : x ∈ (if P then a else a)) : x ∈ a := by
  by_cases hP : P
  · rwa [if_pos hP] at h
  · rwa [if_neg hP] at h

lemma linksGo_subset : ∀ (fuel : Nat) (s : List TChar),
    ∀ p ∈ linksGo fuel s, p ∈ s ∨ p.2 = false := by
  intro fuel
  induction fuel with
  | zero => intro s p hp; exact Or.inl hp
  | succ f ih =>
      intro s p hp
      cases s with
      | nil => simp [linksGo] at hp
      | cons c rest =>
          unfold linksGo at hp
          by_cases hc : c.1 = '['
          · rw [if_pos hc] at hp
            cases hd1 : rest.dropWhile (fun p => p.1 ≠ ']') with
            | nil =>
                rw [hd1] at hp
                exact mem_cons_lift (ih rest) p hp
            | cons t1 r2 =>
                rw [hd1] at hp
                cases r2 with
                | nil =>
                    have hp0 : p ∈ (if rest.takeWhile (fun p => p.1 ≠ ']') ≠ []
                        then c :: linksGo f rest else c :: linksGo f rest) := hp
                    exact mem_cons_lift (ih rest) p (mem_ite_same hp0)
                | cons d r3 =>
                    have hp0 : p ∈ (if rest.takeWhile (fun p => p.1 ≠ ']') ≠ []
                        then
                          (if d.1 = '(' then
                            (match r3.dropWhile (fun p => p.1 ≠ ')') with
                            | _ :: r4 =>
                                if r3.takeWhile (fun p => p.1 ≠ ')') ≠ [] then
                                  tagF "<a href=\"" ++
                                    r3.takeWhile (fun p => p.1 ≠ ')') ++
                                    tagF "\" target=\"_blank\" rel=\"noopener\">" ++
                                    rest.takeWhile (fun p => p.1 ≠ ']') ++
                                    tagF "</a>" ++ linksGo f r4
                                else c :: linksGo f rest
                            | [] => c :: linksGo f rest)
                          else c :: linksGo f rest)
                        else c :: linksGo f rest) := hp
                    have hr3rest : ∀ q ∈ r3, q ∈ rest := by
                      intro q hq
                      have h1 : q ∈ t1 :: d :: r3 := List.mem_cons.mpr
                        (Or.inr (List.mem_cons.mpr (Or.inr hq)))
                      rw [← hd1] at h1
                      exact (List.dropWhile_sublist _).subset h1
                    by_cases ht : rest.takeWhile (fun p => p.1 ≠ ']') ≠ []
                    · rw [if_pos ht] at hp0
                      by_cases hdp : d.1 = '('
                      · rw [if_pos hdp] at hp0
                        cases hd2 : r3.dropWhile (fun p => p.1 ≠ ')') with
                        | nil =>
                            rw [hd2] at hp0
                            exact mem_cons_lift (ih rest) p hp0
                        | cons t2 r4 =>
                            rw [hd2] at hp0
                            have hp1 : p ∈ (if r3.takeWhile
                                (fun p => p.1 ≠ ')') ≠ [] then
                                  tagF "<a href=\"" ++
                                    r3.takeWhile (fun p => p.1 ≠ ')') ++
                                    tagF "\" target=\"_blank\" rel=\"noopener\">" ++
                                    rest.takeWhile (fun p => p.1 ≠ ']') ++
                                    tagF "</a>" ++ linksGo f r4
                                else c :: linksGo f rest) := hp0
                            by_cases hu : r3.takeWhile (fun p => p.1 ≠ ')') ≠ []
                            · rw [if_pos hu] at hp1
                              rcases List.mem_append.mp hp1 with h5 | h6
                              · rcases List.mem_append.mp h5 with h7 | h8
                                · rcases List.mem_append.mp h7 with h9 | h10
                                  · rcases subset_wrap (fun q hq =>
                                        hr3rest q (mem_of_takeWhile q hq))
                                        p h9 with h | h
                                    · exact Or.inl (List.mem_cons.mpr (Or.inr h))
                                    · exact Or.inr h
                                  · exact Or.inl (List.mem_cons.mpr
                                      (Or.inr (mem_of_takeWhile p h10)))
                                · exact Or.inr (tagF_false _ p h8)
                              · rcases ih r4 p h6 with h | h
                                · refine Or.inl (List.mem_cons.mpr (Or.inr ?_))
                                  have h1 : p ∈ r3.dropWhile
                                      (fun p => p.1 ≠ ')') := by
                                    rw [hd2]
                                    exact List.mem_cons.mpr (Or.inr h)
                                  exact hr3rest p
                                    ((List.dropWhile_sublist _).subset h1)
                                · exact Or.inr h
                            · rw [if_neg hu] at hp1
                              exact mem_cons_lift (ih rest) p hp1
                      · rw [if_neg hdp] at hp0
                        exact mem_cons_lift (ih rest) p hp0
                    · rw [if_neg ht] at hp0
                      exact mem_cons_lift (ih rest) p hp0
          · rw [if_neg hc] at hp
            exact mem_cons_lift (ih rest) p hp

lemma paraGo_subset : ∀ (fuel : Nat) (s : List TChar),
    ∀ p ∈ paraGo fuel s, p ∈ s ∨ p.2 = false := by
  intro fuel
  induction fuel with
  | zero => intro s p hp; exact Or.inl hp
  | succ f ih =>
      intro s p hp
      cases s with
      | nil => simp [paraGo] at hp
      | cons c rest =>
          unfold paraGo at hp
          by_cases hc : (c.1 = '\n' ∧ (rest.head?.map (fun p => p.1)) = some '\n')
          · rw [if_pos hc] at hp
            rcases List.mem_append.mp hp with h1 | h2
            · exact Or.inr (tagF_false _ p h1)
            · rcases ih (rest.drop 1) p h2 with h | h
              · exact Or.inl (List.mem_cons.mpr (Or.inr (List.drop_subset 1 rest h)))
              · exact Or.inr h
          · rw [if_neg hc] at hp
            exact mem_cons_lift (ih rest) p hp

lemma brPass_subset (s : List TChar) :
    ∀ p ∈ brPass s, p ∈ s ∨ p.2 = false := by
  intro p hp
  unfold brPass at hp
  obtain ⟨q, hq, hp2⟩ := List.mem_flatMap.mp hp
  by_cases hnl : q.1 = '\n'
  · rw [if_pos hnl] at hp2
    exact Or.inr (tagF_false _ p hp2)
  · rw [if_neg hnl] at hp2
    rw [List.mem_singleton] at hp2
    rw [hp2]
    exact Or.inl hq

lemma wrapPass_subset (s : List TChar) :
    ∀ p ∈ wrapPass s, p ∈ s ∨ p.2 = false := by
  intro p hp
  unfold wrapPass at hp
  by_cases hc : hasSubChars "</p><p>".toList (s.map (fun p => p.1)) = true
  · rw [if_pos hc] at hp
    exact subset_wrap (fun q hq => hq) p hp
  · rw [if_neg hc] at hp
    exact Or.inl hp

lemma headersPass_subset (s : List TChar) :
    ∀ p ∈ headersPass s, p ∈ s ∨ p.2 = false := headersGo_subset _ s

lemma inlinePass_subset (s : List TChar) :
    ∀ p ∈ inlinePass s, p ∈ s ∨ p.2 = false := inlineGo_subset _ s

lemma boldPass_subset (s : List TChar) :
    ∀ p ∈ boldPass s, p ∈ s ∨ p.2 = false := boldGo_subset _ s

lemma emphPass_subset (ch : Char) (s : List TChar) :
    ∀ p ∈ emphPass ch s, p ∈ s ∨ p.2 = false := emphGo_subset ch _ none s

lemma linksPass_subset (s : List TChar) :
    ∀ p ∈ linksPass s, p ∈ s ∨ p.2 = false := linksGo_subset _ s

lemma paraPass_subset (s : List TChar) :
    ∀ p ∈ paraPass s, p ∈ s ∨ p.2 = false := paraGo_subset _ s

lemma inputSafe_renderMarkdownT (s : List Char) :
    inputSafe (renderMarkdownT s) := by
  unfold renderMarkdownT
  have s1 : inputSafe (escapeHtmlT
      (extractCodeBlocks (s.map (fun c => (c, true)))).1) :=
    inputSafe_no_lt (escapeHtmlT_no_lt _)
  have s2 : inputSafe (restoreBlocks
      (escapeHtmlT (extractCodeBlocks (s.map (fun c => (c, true)))).1)
      (extractCodeBlocks (s.map (fun c => (c, true)))).2) :=
    restoreBlocks_safe _ _ s1
      (fun bl hbl => codeGo_blocks_safe _ _ _ bl hbl)
  have s3 := inputSafe_of_subset (headersPass_subset _) s2
  have s4 := inputSafe_of_subset (inlinePass_subset _) s3
  have s5 := inputSafe_of_subset (boldPass_subset _) s4
  have s6 := inputSafe_of_subset (emphPass_subset '*' _) s5
  have s7 := inputSafe_of_subset (emphPass_subset '_' _) s6
  have s8 := inputSafe_of_subset (linksPass_subset _) s7
  have s9 := inputSafe_of_subset (paraPass_subset _) s8
  have s10 := inputSafe_of_subset (brPass_subset _) s9
  exact inputSafe_of_subset (wrapPass_subset _) s10

/-- C5: `renderMarkdown` escapes every special character of the input —
`escapeHtml` maps `&`, `<`, `>`, `"`, `'` to `&amp;`, `&lt;`, `&gt;`,
`&quot;`, `&#039;` and leaves every other character unchanged, acting
characterwise — and in the rendered output no character that derives from
the input is a raw `<`: every `<` of `renderMarkdown`'s output was
introduced by the renderer's own fixed markup. -/
theorem C5_renderMarkdown_escapes_input (s : List Char) :
    escapeHtml s = s.flatMap htmlEscapeMap ∧
    escapeHtml ['&'] = "&amp;".toList ∧
    escapeHtml ['<'] = "&lt;".toList ∧
    escapeHtml ['>'] = "&gt;".toList ∧
    escapeHtml ['"'] = "&quot;".toList ∧
    escapeHtml [squote] = "&#039;".toList ∧
    (∀ c : Char, c ≠ '&' → c ≠ '<' → c ≠ '>' → c ≠ '"' → c ≠ squote →
      escapeHtml [c] = [c]) ∧
    renderMarkdown s = (renderMarkdownT s).map (fun p => p.1) ∧
    (∀ p ∈ renderMarkdownT s, p.2 = true → p.1 ≠ '<') := by
  refine ⟨?_, by decide, by decide, by decide, by decide, by decide, ?_, rfl,
    inputSafe_renderMarkdownT s⟩
  · induction s with
    | nil => rfl
    | cons c rest ih =>
        rw [show escapeHtml (c :: rest) = htmlEscapeMap c ++ escapeHtml rest
          from rfl]
        rw [List.flatMap_cons, ih]
  · intro c h1 h2 h3 h4 h5
    rw [show escapeHtml [c] = htmlEscapeMap c ++ escapeHtml [] from rfl]
    unfold htmlEscapeMap
    rw [if_neg h1, if_neg h2, if_neg h3, if_neg h4, if_neg h5]
    rfl

/-- C5 witness: the theorem evaluated at the input `a<b`, with the
other-characters clause discharged at the letter `a`. -/
theorem C5_witness :
    escapeHtml ['a'] = ['a'] ∧
    renderMarkdown "a<b".toList =
      (renderMarkdownT "a<b".toList).map (fun p => p.1) := by
  obtain ⟨-, -, -, -, -, -, hother, hrend, -⟩ :=
    C5_renderMarkdown_escapes_input "a<b".toList
  exact ⟨hother 'a' (by decide) (by decide) (by decide) (by decide) (by decide),
    hrend⟩

end BabbleBuddy
